import Mathlib

/-!
Verification of the 2048 core logic (`src/core.py`) against its
natural-language specification.  The Python functions are shallowly
embedded as executable Lean definitions over `List (List Int)` boards;
randomness (`random.choice`, `random.random`) is made explicit as
parameters (`pick : Nat`, `four : Bool`).
-/

set_option maxHeartbeats 1000000

namespace TwentyFortyEight

/-- Python `GameProgressState` enum. -/
inductive GameProgressState where
  | IN_PROGRESS
  | GAME_OVER
  | GAME_WON
deriving DecidableEq, Repr

/-- Python `DIRECTION` enum. -/
inductive DIRECTION where
  | UP
  | DOWN
  | LEFT
  | RIGHT
deriving DecidableEq, Repr

/-- A board is a list of rows of (Python) integers. -/
abbrev Board := List (List Int)

/-- Reads `board[r][c]` for in-range indices; out-of-range reads (which
the Python code never performs on well-formed boards) default to `0`. -/
def cell (b : Board) (r c : Nat) : Int :=
  (b.getD r []).getD c 0

/-- Right-pad a list with zeros to length `n` (Python writes into a
zero-initialised list of length `n`). -/
def pad (n : Nat) (l : List Int) : List Int :=
  l ++ List.replicate (n - l.length) 0

/-- The non-zero entries of a line, in order (`[i for i in line if i != 0]`). -/
def nz (l : List Int) : List Int :=
  l.filter (fun i => i ≠ 0)

/-- Python `_compress_line`: move non-zero tiles to the front, pad with
zeros, and report whether the line changed. -/
def _compress_line (line : List Int) : List Int × Bool :=
  let new_line := pad line.length (nz line)
  (new_line, decide (new_line ≠ line))

/-- The compact result and score of Python `_merge_line`'s while loop:
zeros are skipped, a value equal to its successor merges into the double
(consuming both and scoring the double), otherwise the value is copied. -/
def merge_core : List Int → List Int × Int
  | [] => ([], 0)
  | [a] => if a = 0 then ([], 0) else ([a], 0)
  | a :: b :: rest =>
    if a = 0 then merge_core (b :: rest)
    else if a = b then
      let p := merge_core rest
      (a * 2 :: p.1, p.2 + a * 2)
    else
      let p := merge_core (b :: rest)
      (a :: p.1, p.2)

/-- Python `_merge_line`: merged line (padded to the input length),
score increase, and whether the line changed. -/
def _merge_line (line : List Int) : List Int × Int × Bool :=
  let p := merge_core line
  let new_line := pad line.length p.1
  (new_line, p.2, decide (new_line ≠ line))

/-- Python `_process_single_line_leftwise`: compress, merge, compress
again; the changed flag compares the final line with the original. -/
def _process_single_line_leftwise (line : List Int) : List Int × Int × Bool :=
  let c1 := _compress_line line
  let m := _merge_line c1.1
  let c2 := _compress_line m.1
  (c2.1, m.2.1, decide (c2.1 ≠ line))

/-- Python `transpose_board` (requires a square board in Python;
embedded via indexed reads). -/
def transpose_board (b : Board) : Board :=
  let n := b.length
  (List.range n).map (fun r => (List.range n).map (fun c => cell b c r))

/-- Python `reverse_rows`. -/
def reverse_rows (b : Board) : Board :=
  b.map List.reverse

/-- Python `_apply_left_processing_to_all_lines`: rows are replaced (and
their scores counted) only when the row changed. -/
def _apply_left_processing_to_all_lines (b : Board) : Board × Int × Bool :=
  b.foldr
    (fun row acc =>
      let p := _process_single_line_leftwise row
      if p.2.2 then (p.1 :: acc.1, p.2.1 + acc.2.1, true)
      else (row :: acc.1, acc.2.1, acc.2.2))
    ([], 0, false)

/-- Python `process_move`: reduce every direction to the leftward pass
via transpose / row reversal, undoing the transform only when the pass
changed something. -/
def process_move (b : Board) (dir : DIRECTION) : Board × Int × Bool :=
  match dir with
  | .LEFT => _apply_left_processing_to_all_lines b
  | .RIGHT =>
    let p := _apply_left_processing_to_all_lines (reverse_rows b)
    (if p.2.2 then reverse_rows p.1 else b, p.2.1, p.2.2)
  | .UP =>
    let p := _apply_left_processing_to_all_lines (transpose_board b)
    (if p.2.2 then transpose_board p.1 else b, p.2.1, p.2.2)
  | .DOWN =>
    let p := _apply_left_processing_to_all_lines (reverse_rows (transpose_board b))
    (if p.2.2 then transpose_board (reverse_rows p.1) else b, p.2.1, p.2.2)

/-- Python `get_empty_cells`: row-major coordinates of zero cells. -/
def get_empty_cells (b : Board) : List (Nat × Nat) :=
  let n := b.length
  ((List.range n).map
    (fun r => ((List.range n).filter (fun c => cell b r c == 0)).map (fun c => (r, c)))).flatten

/-- Python `set`-assignment `new_board[row][col] = v` on a copy. -/
def set_cell (b : Board) (r c : Nat) (v : Int) : Board :=
  b.set r ((b.getD r []).set c v)

/-- Python `add_random_tile`; `random.choice` over the empty-cell list is
modelled by the index `pick % length`, and `random.random() < 0.1`
(value 4 instead of 2) by the flag `four`. -/
def add_random_tile (b : Board) (pick : Nat) (four : Bool) : Board × Bool :=
  let empty_cells := get_empty_cells b
  if empty_cells.isEmpty then (b, false)
  else
    let rc := empty_cells.getD (pick % empty_cells.length) (0, 0)
    (set_cell b rc.1 rc.2 (if four then 4 else 2), true)

/-- Python `initialize_board` with the two random draws made explicit;
`ValueError` is modelled as `Except.error`.  A non-`int` `size` cannot be
expressed against the `Int`-typed embedding, so only the positivity test
is modelled. -/
def initialize_board (size : Int) (p1 p2 : Nat) (f1 f2 : Bool) :
    Except String (Board × Int × GameProgressState) :=
  if size ≤ 0 then .error "Board size must be a positive integer."
  else
    let b0 : Board := List.replicate size.toNat (List.replicate size.toNat 0)
    let b1 := (add_random_tile b0 p1 f1).1
    let b2 := (add_random_tile b1 p2 f2).1
    .ok (b2, 0, .IN_PROGRESS)

/-- Python `check_for_win`. -/
def check_for_win (b : Board) (win_tile : Int) : Bool :=
  let n := b.length
  (List.range n).any (fun r => (List.range n).any (fun c => cell b r c == win_tile))

/-- One iteration body of Python `is_move_possible_in_direction`: can the
non-empty tile at `(r, c)` move or merge one step in `dir`? -/
def movable_cell (b : Board) (n r c : Nat) (dir : DIRECTION) : Bool :=
  if cell b r c = 0 then false
  else
    match dir with
    | .UP => decide (r > 0) && (cell b (r-1) c == 0 || cell b (r-1) c == cell b r c)
    | .DOWN => decide (r < n - 1) && (cell b (r+1) c == 0 || cell b (r+1) c == cell b r c)
    | .LEFT => decide (c > 0) && (cell b r (c-1) == 0 || cell b r (c-1) == cell b r c)
    | .RIGHT => decide (c < n - 1) && (cell b r (c+1) == 0 || cell b r (c+1) == cell b r c)

/-- Python `is_move_possible_in_direction`. -/
def is_move_possible_in_direction (b : Board) (dir : DIRECTION) : Bool :=
  let n := b.length
  (List.range n).any (fun r => (List.range n).any (fun c => movable_cell b n r c dir))

/-- Python `is_any_move_possible` (enum iteration order UP, DOWN, LEFT, RIGHT). -/
def is_any_move_possible (b : Board) : Bool :=
  is_move_possible_in_direction b .UP || is_move_possible_in_direction b .DOWN ||
    is_move_possible_in_direction b .LEFT || is_move_possible_in_direction b .RIGHT

/-- Python `determine_game_status`, including its redundant second
`GAME_OVER` test and the final fallback. -/
def determine_game_status (b : Board) (win_tile : Int) : GameProgressState :=
  if check_for_win b win_tile then .GAME_WON
  else if (get_empty_cells b).isEmpty && !is_any_move_possible b then .GAME_OVER
  else if !is_any_move_possible b && (get_empty_cells b).isEmpty then .GAME_OVER
  else if is_any_move_possible b || !(get_empty_cells b).isEmpty then .IN_PROGRESS
  else .GAME_OVER

/-- A (positive) power of two: the legal non-zero tile values. -/
def IsPow2 (v : Int) : Prop := ∃ k : Nat, v = 2 ^ k

instance (v : Int) : Decidable (IsPow2 v) :=
  decidable_of_iff (∃ k : Nat, k ≤ v.toNat ∧ v = 2 ^ k)
    (by
      constructor
      · rintro ⟨k, _, h⟩; exact ⟨k, h⟩
      · rintro ⟨k, h⟩
        refine ⟨k, ?_, h⟩
        subst h
        have h2 : ((2 : Int) ^ k).toNat = 2 ^ k := by
          rw [show ((2 : Int) ^ k) = ((2 ^ k : Nat) : Int) by push_cast; ring]
          exact Int.toNat_natCast _
        rw [h2]
        exact Nat.le_of_lt (Nat.lt_two_pow k))

/-- The board is a non-empty square grid. -/
def Square (b : Board) : Prop :=
  0 < b.length ∧ ∀ row ∈ b, row.length = b.length

/-- Spec §3 well-formedness: non-empty square grid, every entry zero or
a power of two. -/
def WellFormed (b : Board) : Prop :=
  Square b ∧ ∀ row ∈ b, ∀ v ∈ row, v = 0 ∨ IsPow2 v

instance (b : Board) : Decidable (Square b) := by
  unfold Square; infer_instance

instance (b : Board) : Decidable (WellFormed b) := by
  unfold WellFormed; infer_instance

/-- Sum of all cell values. -/
def board_sum (b : Board) : Int :=
  (b.map List.sum).sum

/-- Number of non-zero cells. -/
def nonzero_count (b : Board) : Nat :=
  (b.map (fun row => (nz row).length)).sum

/-- A zero cell sits immediately left of a non-zero cell somewhere in the
line (so a leftward slide closes a gap). -/
def hasGap : List Int → Bool
  | [] => false
  | [_] => false
  | a :: b :: rest => (a == 0 && decide (b ≠ 0)) || hasGap (b :: rest)

/-- Two equal non-zero cells are adjacent somewhere in the line (so a
leftward slide merges them). -/
def hasPair : List Int → Bool
  | [] => false
  | [_] => false
  | a :: b :: rest => (decide (a ≠ 0) && a == b) || hasPair (b :: rest)

/-- The per-line reading of `is_move_possible_in_direction` for LEFT:
some non-zero cell has an in-bounds left neighbour that is empty or
equal-valued. -/
def movable_left_row : List Int → Bool
  | [] => false
  | [_] => false
  | a :: b :: rest => (decide (b ≠ 0) && (a == 0 || a == b)) || movable_left_row (b :: rest)

/-! ### Lemmas about `pad`, `nz` and the merge loop -/

theorem pad_length {l : List Int} {n : Nat} (h : l.length ≤ n) :
    (pad n l).length = n := by
  simp [pad]
  omega

theorem pad_cons (n : Nat) (a : Int) (l : List Int) :
    pad (n + 1) (a :: l) = a :: pad n l := by
  simp [pad, List.cons_append]

theorem nz_length_le (l : List Int) : (nz l).length ≤ l.length :=
  List.length_filter_le _ _

theorem nz_all_nonzero (l : List Int) : ∀ x ∈ nz l, x ≠ 0 := by
  intro x hx
  have := List.of_mem_filter hx
  simpa using this

theorem nz_of_all_nonzero {l : List Int} (h : ∀ x ∈ l, x ≠ 0) : nz l = l := by
  rw [nz, List.filter_eq_self]
  intro a ha
  simpa using h a ha

theorem nz_nz (l : List Int) : nz (nz l) = nz l :=
  nz_of_all_nonzero (nz_all_nonzero l)

theorem nz_append_zeros (l : List Int) (k : Nat) :
    nz (l ++ List.replicate k 0) = nz l := by
  rw [nz, List.filter_append]
  have : (List.replicate k (0 : Int)).filter (fun i => i ≠ 0) = [] := by
    apply List.filter_eq_nil_iff.mpr
    intro a ha
    simp [List.eq_of_mem_replicate ha]
  rw [this, List.append_nil]
  rfl

theorem nz_pad (n : Nat) (l : List Int) : nz (pad n l) = nz l :=
  nz_append_zeros l _

theorem nz_eq_nil_of_all_zero {l : List Int} (h : ∀ x ∈ l, x = 0) : nz l = [] := by
  apply List.filter_eq_nil_iff.mpr
  intro a ha
  simp [h a ha]

theorem eq_replicate_zero_of_all_zero {l : List Int} (h : ∀ x ∈ l, x = 0) :
    l = List.replicate l.length 0 :=
  List.eq_replicate_of_mem h

/-- With a zero head and no gap, the whole line is zero. -/
theorem all_zero_of_hasGap_false_zero_head :
    ∀ t : List Int, hasGap (0 :: t) = false → ∀ x ∈ (0 : Int) :: t, x = 0 := by
  intro t
  induction t with
  | nil => intro _ x hx; simpa using hx
  | cons b r ih =>
    intro h x hx
    have hb : b = 0 ∧ hasGap (b :: r) = false := by
      simp [hasGap] at h
      tauto
    rcases hb with ⟨hb0, hg⟩
    subst hb0
    rcases List.mem_cons.mp hx with h0 | hx'
    · exact h0
    · exact ih hg x hx'

/-- A gap-free line is its compressed form padded back out: the zeros
form a suffix. -/
theorem pad_nz_eq_of_hasGap_false :
    ∀ l : List Int, hasGap l = false → pad l.length (nz l) = l := by
  intro l
  induction l with
  | nil => intro _; rfl
  | cons a t ih =>
    intro h
    by_cases ha : a = 0
    · subst ha
      have hz := all_zero_of_hasGap_false_zero_head t h
      have h1 : nz ((0 : Int) :: t) = [] := nz_eq_nil_of_all_zero hz
      rw [h1]
      have h2 : (0 : Int) :: t = List.replicate ((0 : Int) :: t).length 0 :=
        eq_replicate_zero_of_all_zero hz
      conv_rhs => rw [h2]
      simp [pad]
    · have ht : hasGap t = false := by
        cases t with
        | nil => rfl
        | cons b r =>
          simp [hasGap, ha] at h ⊢
          tauto
      have h1 : nz (a :: t) = a :: nz t := by
        simp [nz, List.filter_cons, ha]
      rw [h1, List.length_cons, pad_cons, ih ht]

/-- Padding an all-non-zero list with zeros never creates a gap. -/
theorem hasGap_all_nonzero_append_zeros :
    ∀ (m : List Int), (∀ x ∈ m, x ≠ 0) → ∀ k, hasGap (m ++ List.replicate k 0) = false := by
  intro m
  induction m with
  | nil =>
    intro _ k
    induction k with
    | zero => rfl
    | succ k ihk =>
      cases k with
      | zero => rfl
      | succ k' => simpa [List.replicate_succ, hasGap] using ihk
  | cons a t ih =>
    intro h k
    have ha : a ≠ 0 := h a (List.mem_cons_self a t)
    have ht := ih (fun x hx => h x (List.mem_cons_of_mem a hx)) k
    cases t with
    | nil =>
      cases k with
      | zero => rfl
      | succ k' => simpa [List.replicate_succ, hasGap, ha] using ht
    | cons b r => simpa [hasGap, ha] using ht

theorem hasGap_pad_nz (n : Nat) (l : List Int) : hasGap (pad n (nz l)) = false :=
  hasGap_all_nonzero_append_zeros (nz l) (nz_all_nonzero l) _

/-- Appending zeros never changes whether an equal adjacent pair exists. -/
theorem hasPair_append_zeros :
    ∀ (m : List Int) (k : Nat), hasPair (m ++ List.replicate k 0) = hasPair m := by
  intro m
  induction m with
  | nil =>
    intro k
    induction k with
    | zero => rfl
    | succ k ihk =>
      cases k with
      | zero => rfl
      | succ k' => simpa [List.replicate_succ, hasPair] using ihk
  | cons a t ih =>
    intro k
    cases t with
    | nil =>
      cases k with
      | zero => rfl
      | succ k' =>
        have := ih (k' + 1)
        simp [List.replicate_succ, hasPair] at this ⊢
        tauto
    | cons b r =>
      have := ih k
      simp [hasPair] at this ⊢
      tauto

theorem hasPair_cons_of_hasPair {t : List Int} (a : Int) (h : hasPair t = true) :
    hasPair (a :: t) = true := by
  cases t with
  | nil => simp [hasPair] at h
  | cons b r => simp [hasPair] at h ⊢; tauto

theorem hasPair_nz_of_hasPair :
    ∀ l : List Int, hasPair l = true → hasPair (nz l) = true := by
  intro l
  induction l with
  | nil => intro h; simp [hasPair] at h
  | cons a t ih =>
    intro h
    cases t with
    | nil => simp [hasPair] at h
    | cons b r =>
      simp only [hasPair, Bool.or_eq_true, Bool.and_eq_true] at h
      rcases h with ⟨ha, hab⟩ | htail
      · have ha' : a ≠ 0 := by simpa using ha
        have hab' : a = b := by simpa using hab
        have hb' : b ≠ 0 := hab' ▸ ha'
        have h1 : nz (a :: b :: r) = a :: b :: nz r := by
          simp [nz, List.filter_cons, ha', hb']
        rw [h1]
        simp [hasPair, ha', hab', hb']
      · have := ih htail
        by_cases ha : a = 0
        · subst ha
          simpa [nz, List.filter_cons] using this
        · have h1 : nz (a :: b :: r) = a :: nz (b :: r) := by
            simp [nz, List.filter_cons, ha]
          rw [h1]
          exact hasPair_cons_of_hasPair a this


theorem merge_core_zero_cons (t : List Int) : merge_core (0 :: t) = merge_core t := by
  cases t with
  | nil => rfl
  | cons b r => simp [merge_core]

theorem merge_core_replicate_zero (k : Nat) :
    merge_core (List.replicate k (0 : Int)) = ([], 0) := by
  induction k with
  | zero => rfl
  | succ k ih => rw [List.replicate_succ, merge_core_zero_cons, ih]

theorem merge_core_append_zeros :
    ∀ (l : List Int) (k : Nat), merge_core (l ++ List.replicate k 0) = merge_core l := by
  intro l
  induction l using merge_core.induct with
  | case1 => intro k; simpa using merge_core_replicate_zero k
  | case2 =>
    intro k
    rw [List.cons_append, List.nil_append, merge_core_zero_cons,
      merge_core_replicate_zero, merge_core_zero_cons]
    rfl
  | case3 a h =>
    intro k
    cases k with
    | zero => simp
    | succ k' =>
      rw [List.cons_append, List.nil_append, List.replicate_succ]
      have h0 : a ≠ (0 : Int) := h
      simp only [merge_core, if_neg h, if_neg h0, merge_core_zero_cons,
        merge_core_replicate_zero]
  | case4 b rest ih =>
    intro k
    rw [List.cons_append, merge_core_zero_cons, merge_core_zero_cons]
    exact ih k
  | case5 b rest h ih =>
    intro k
    rw [List.cons_append, List.cons_append]
    simp [merge_core, h, ih k]
  | case6 a b rest h1 h2 ih =>
    intro k
    have e1 : merge_core ((a :: b :: rest) ++ List.replicate k 0) =
        (a :: (merge_core (b :: (rest ++ List.replicate k 0))).1,
          (merge_core (b :: (rest ++ List.replicate k 0))).2) := by
      simp only [List.cons_append, merge_core, if_neg h1, if_neg h2, List.append_eq]
    have e2 : merge_core (a :: b :: rest) =
        (a :: (merge_core (b :: rest)).1, (merge_core (b :: rest)).2) := by
      simp only [merge_core, if_neg h1, if_neg h2]
    have e3 : merge_core (b :: (rest ++ List.replicate k 0)) = merge_core (b :: rest) := ih k
    rw [e1, e2, e3]

theorem merge_core_all_nonzero :
    ∀ l : List Int, ∀ x ∈ (merge_core l).1, x ≠ 0 := by
  intro l
  induction l using merge_core.induct with
  | case1 => simp [merge_core]
  | case2 => simp [merge_core]
  | case3 a h => simp [merge_core, h]
  | case4 b rest ih => rw [merge_core_zero_cons]; exact ih
  | case5 b rest h ih =>
    intro x hx
    simp only [merge_core, if_neg h, if_pos rfl, if_true, List.mem_cons] at hx
    rcases hx with heq | hx
    · rw [heq]; exact mul_ne_zero h (by norm_num)
    · exact ih x hx
  | case6 a b rest h1 h2 ih =>
    intro x hx
    simp only [merge_core, if_neg h1, if_neg h2, List.mem_cons] at hx
    rcases hx with rfl | hx
    · exact h1
    · exact ih x hx

theorem merge_core_length_le_nz :
    ∀ l : List Int, (merge_core l).1.length ≤ (nz l).length := by
  intro l
  induction l using merge_core.induct with
  | case1 => simp [merge_core]
  | case2 => simp [merge_core, nz]
  | case3 a h => simp [merge_core, nz, List.filter_cons, h]
  | case4 b rest ih =>
    rw [merge_core_zero_cons]
    calc (merge_core (b :: rest)).1.length ≤ (nz (b :: rest)).length := ih
    _ ≤ (nz (0 :: b :: rest)).length := by simp [nz, List.filter_cons]
  | case5 b rest h ih =>
    have hlen : (nz (b :: b :: rest)).length = (nz rest).length + 2 := by
      simp [nz, List.filter_cons, h]
    simp only [merge_core, if_neg h, if_pos rfl, if_true, List.length_cons]
    omega
  | case6 a b rest h1 h2 ih =>
    have hlen : (nz (a :: b :: rest)).length = (nz (b :: rest)).length + 1 := by
      simp [nz, List.filter_cons, h1]
    simp only [merge_core, if_neg h1, if_neg h2, List.length_cons]
    omega

theorem merge_core_length_le (l : List Int) :
    (merge_core l).1.length ≤ l.length :=
  le_trans (merge_core_length_le_nz l) (nz_length_le l)

theorem merge_core_id_of_no_pair :
    ∀ m : List Int, (∀ x ∈ m, x ≠ 0) → hasPair m = false → merge_core m = (m, 0) := by
  intro m
  induction m using merge_core.induct with
  | case1 => intro _ _; rfl
  | case2 =>
    intro hnz _
    exact absurd rfl (hnz 0 (List.mem_cons_self 0 []))
  | case3 a h => intro _ _; simp [merge_core, h]
  | case4 b rest ih =>
    intro hnz _
    exact absurd rfl (hnz 0 (List.mem_cons_self 0 (b :: rest)))
  | case5 b rest h ih =>
    intro hnz hp
    exfalso
    have hpt : hasPair (b :: b :: rest) = true := by simp [hasPair, h]
    rw [hp] at hpt
    exact Bool.false_ne_true hpt
  | case6 a b rest h1 h2 ih =>
    intro hnz hp
    have hp' : hasPair (b :: rest) = false := by
      simp [hasPair] at hp
      tauto
    have hnz' : ∀ x ∈ b :: rest, x ≠ 0 := fun x hx => hnz x (List.mem_cons_of_mem a hx)
    simp only [merge_core, if_neg h1, if_neg h2, ih hnz' hp']

theorem merge_core_length_lt_of_pair :
    ∀ m : List Int, (∀ x ∈ m, x ≠ 0) → hasPair m = true →
      (merge_core m).1.length < m.length := by
  intro m
  induction m using merge_core.induct with
  | case1 => intro _ h; simp [hasPair] at h
  | case2 => intro _ h; simp [hasPair] at h
  | case3 a h => intro _ hp; simp [hasPair] at hp
  | case4 b rest ih =>
    intro hnz _
    exact absurd rfl (hnz 0 (List.mem_cons_self 0 (b :: rest)))
  | case5 b rest h ih =>
    intro hnz _
    have hrest : ∀ x ∈ rest, x ≠ 0 := fun x hx =>
      hnz x (List.mem_cons_of_mem b (List.mem_cons_of_mem b hx))
    have hle : (merge_core rest).1.length ≤ (nz rest).length := merge_core_length_le_nz rest
    rw [nz_of_all_nonzero hrest] at hle
    simp only [merge_core, if_neg h, if_pos rfl, if_true, List.length_cons]
    omega
  | case6 a b rest h1 h2 ih =>
    intro hnz hp
    have hp' : hasPair (b :: rest) = true := by
      simp [hasPair, h1, h2] at hp
      simpa using hp
    have hnz' : ∀ x ∈ b :: rest, x ≠ 0 := fun x hx => hnz x (List.mem_cons_of_mem a hx)
    have := ih hnz' hp'
    simp only [List.length_cons] at this
    simp only [merge_core, if_neg h1, if_neg h2, List.length_cons]
    omega

theorem merge_core_sum : ∀ l : List Int, (merge_core l).1.sum = l.sum := by
  intro l
  induction l using merge_core.induct
  all_goals simp_all [merge_core]
  all_goals ring

/-- Each entry of the merge output is an input entry or the double of one. -/
theorem merge_core_mem :
    ∀ l : List Int, ∀ x ∈ (merge_core l).1, ∃ y ∈ l, x = y ∨ x = y * 2 := by
  intro l
  induction l using merge_core.induct with
  | case1 => simp [merge_core]
  | case2 => simp [merge_core]
  | case3 a h =>
    intro x hx
    simp [merge_core, h] at hx
    exact ⟨a, by simp, Or.inl hx⟩
  | case4 b rest ih =>
    intro x hx
    rw [merge_core_zero_cons] at hx
    obtain ⟨y, hy, hxy⟩ := ih x hx
    exact ⟨y, List.mem_cons_of_mem _ hy, hxy⟩
  | case5 b rest h ih =>
    intro x hx
    simp only [merge_core, if_neg h, if_pos rfl, if_true, List.mem_cons] at hx
    rcases hx with heq | hx
    · exact ⟨b, by simp, Or.inr heq⟩
    · obtain ⟨y, hy, hxy⟩ := ih x hx
      exact ⟨y, List.mem_cons_of_mem _ (List.mem_cons_of_mem _ hy), hxy⟩
  | case6 a b rest h1 h2 ih =>
    intro x hx
    simp only [merge_core, if_neg h1, if_neg h2, List.mem_cons] at hx
    rcases hx with heq | hx
    · exact ⟨a, by simp, Or.inl heq⟩
    · obtain ⟨y, hy, hxy⟩ := ih x hx
      exact ⟨y, List.mem_cons_of_mem _ hy, hxy⟩

/-- The values produced by merges (each merged pair `(v, v)` yields
`2 v`), in the order the merge loop produces them.  Mirrors the merge
loop of `_merge_line`, recording only the merge outputs. -/
def merge_outputs : List Int → List Int
  | [] => []
  | [_] => []
  | a :: b :: rest =>
    if a = 0 then merge_outputs (b :: rest)
    else if a = b then a * 2 :: merge_outputs rest
    else merge_outputs (b :: rest)

/-- The score accumulated by the merge loop is exactly the sum of the
merged-pair output values. -/
theorem merge_core_score_eq_outputs :
    ∀ l : List Int, (merge_core l).2 = (merge_outputs l).sum := by
  intro l
  induction l using merge_core.induct with
  | case1 => rfl
  | case2 => rfl
  | case3 a h => simp [merge_core, merge_outputs, h]
  | case4 b rest ih => rw [merge_core_zero_cons]; simpa [merge_outputs] using ih
  | case5 b rest h ih => simp [merge_core, merge_outputs, h, ih]; ring
  | case6 a b rest h1 h2 ih => simp [merge_core, merge_outputs, h1, h2, ih]

theorem merge_core_score_nonneg :
    ∀ m : List Int, (∀ x ∈ m, 0 ≤ x) → 0 ≤ (merge_core m).2 := by
  intro m
  induction m using merge_core.induct with
  | case1 => intro _; simp [merge_core]
  | case2 => intro _; simp [merge_core]
  | case3 a h => intro _; simp [merge_core, h]
  | case4 b rest ih =>
    intro hpos
    rw [merge_core_zero_cons]
    exact ih (fun x hx => hpos x (List.mem_cons_of_mem 0 hx))
  | case5 b rest h ih =>
    intro hpos
    have hb : 0 ≤ b := hpos b (List.mem_cons_self b (b :: rest))
    have hr := ih (fun x hx =>
      hpos x (List.mem_cons_of_mem b (List.mem_cons_of_mem b hx)))
    simp only [merge_core, if_neg h, if_pos rfl, if_true]
    omega
  | case6 a b rest h1 h2 ih =>
    intro hpos
    have hr := ih (fun x hx => hpos x (List.mem_cons_of_mem a hx))
    simp only [merge_core, if_neg h1, if_neg h2]
    omega

/-- Over positive entries, a zero merge score means no merge fired: the
line has no mergeable pair and comes back unchanged. -/
theorem merge_core_score_zero :
    ∀ m : List Int, (∀ x ∈ m, 0 < x) → (merge_core m).2 = 0 →
      hasPair m = false ∧ (merge_core m).1 = m := by
  intro m
  induction m using merge_core.induct with
  | case1 => intro _ _; exact ⟨rfl, rfl⟩
  | case2 =>
    intro hpos _
    exact absurd (hpos 0 (List.mem_cons_self 0 [])) (by norm_num)
  | case3 a h => intro _ _; exact ⟨rfl, by simp [merge_core, h]⟩
  | case4 b rest ih =>
    intro hpos _
    exact absurd (hpos 0 (List.mem_cons_self 0 (b :: rest))) (by norm_num)
  | case5 b rest h ih =>
    intro hpos hscore
    exfalso
    have hb : 0 < b := hpos b (List.mem_cons_self b (b :: rest))
    have hr := merge_core_score_nonneg rest (fun x hx =>
      le_of_lt (hpos x (List.mem_cons_of_mem b (List.mem_cons_of_mem b hx))))
    simp only [merge_core, if_neg h, if_pos rfl, if_true] at hscore
    omega
  | case6 a b rest h1 h2 ih =>
    intro hpos hscore
    simp only [merge_core, if_neg h1, if_neg h2] at hscore ⊢
    obtain ⟨hp, hm⟩ := ih (fun x hx => hpos x (List.mem_cons_of_mem a hx)) hscore
    refine ⟨?_, by rw [hm]⟩
    simp [hasPair, h2, hp]

/-! ### The processed line -/

/-- Closed form of `_process_single_line_leftwise`: compress, merge the
compact part, pad back out. -/
theorem processLine_eq (l : List Int) :
    _process_single_line_leftwise l =
      (pad l.length ((merge_core (nz l)).1), (merge_core (nz l)).2,
        decide (pad l.length ((merge_core (nz l)).1) ≠ l)) := by
  have h1 : (pad l.length (nz l)).length = l.length := pad_length (nz_length_le l)
  have h2 : merge_core (pad l.length (nz l)) = merge_core (nz l) :=
    merge_core_append_zeros _ _
  have h3 : (merge_core (nz l)).1.length ≤ l.length := by
    have := merge_core_length_le_nz (nz l)
    rw [nz_nz] at this
    exact le_trans this (nz_length_le l)
  have h4 : nz (pad l.length ((merge_core (nz l)).1)) = (merge_core (nz l)).1 := by
    rw [nz_pad]
    exact nz_of_all_nonzero (merge_core_all_nonzero _)
  have h5 : (pad l.length ((merge_core (nz l)).1)).length = l.length := pad_length h3
  unfold _process_single_line_leftwise _compress_line _merge_line
  simp only [h1, h2, h4, h5]

theorem processLine_length (l : List Int) :
    (_process_single_line_leftwise l).1.length = l.length := by
  rw [processLine_eq]
  have h3 : (merge_core (nz l)).1.length ≤ l.length := by
    have := merge_core_length_le_nz (nz l)
    rw [nz_nz] at this
    exact le_trans this (nz_length_le l)
  exact pad_length h3

/-- The left-movability test decomposes into "has a gap" or "has a
mergeable pair". -/
theorem bool_eq_of_iff {a b : Bool} (h : a = true ↔ b = true) : a = b := by
  cases a <;> cases b <;> simp_all

theorem movable_eq_gap_or_pair :
    ∀ l : List Int, movable_left_row l = (hasGap l || hasPair l) := by
  intro l
  induction l with
  | nil => rfl
  | cons a t ih =>
    cases t with
    | nil => rfl
    | cons b r =>
      apply bool_eq_of_iff
      simp only [movable_left_row, hasGap, hasPair, ih, Bool.or_eq_true,
        Bool.and_eq_true, beq_iff_eq, decide_eq_true_eq]
      constructor
      · rintro (⟨hb, h0 | hab⟩ | hGP)
        · exact Or.inl (Or.inl ⟨h0, hb⟩)
        · rcases eq_or_ne a 0 with ha | ha
          · exact absurd (hab ▸ ha) hb
          · exact Or.inr (Or.inl ⟨ha, hab⟩)
        · rcases hGP with hG | hP
          · exact Or.inl (Or.inr hG)
          · exact Or.inr (Or.inr hP)
      · rintro ((⟨h0, hb⟩ | hG) | (⟨ha, hab⟩ | hP))
        · exact Or.inl ⟨hb, Or.inl h0⟩
        · exact Or.inr (Or.inl hG)
        · exact Or.inl ⟨hab ▸ ha, Or.inr hab⟩
        · exact Or.inr (Or.inr hP)

/-- A line that cannot move left is returned untouched, with zero score
and a false changed flag. -/
theorem processLine_of_not_movable {l : List Int} (h : movable_left_row l = false) :
    _process_single_line_leftwise l = (l, 0, false) := by
  rw [movable_eq_gap_or_pair] at h
  have hg : hasGap l = false := by
    cases hG : hasGap l
    · rfl
    · rw [hG] at h; simp at h
  have hp : hasPair l = false := by
    cases hP : hasPair l
    · rfl
    · rw [hP] at h; simp at h
  have hzs : pad l.length (nz l) = l := pad_nz_eq_of_hasGap_false l hg
  have hp' : hasPair (nz l) = false := by
    have e := hasPair_append_zeros (nz l) (l.length - (nz l).length)
    have : pad l.length (nz l) = nz l ++ List.replicate (l.length - (nz l).length) 0 := rfl
    rw [← this, hzs] at e
    rw [← e, hp]
  have hid := merge_core_id_of_no_pair (nz l) (nz_all_nonzero l) hp'
  rw [processLine_eq, hid]
  simp [hzs]

/-- A line that can move left really changes under processing. -/
theorem processLine_ne_of_movable {l : List Int} (h : movable_left_row l = true) :
    pad l.length ((merge_core (nz l)).1) ≠ l := by
  rw [movable_eq_gap_or_pair] at h
  by_cases hg : hasGap l = true
  · -- the output never has a gap, the input does
    intro heq
    have hng : hasGap (pad l.length ((merge_core (nz l)).1)) = false :=
      hasGap_all_nonzero_append_zeros _ (merge_core_all_nonzero _) _
    rw [heq, hg] at hng
    exact absurd hng (by simp)
  · have hg' : hasGap l = false := by
      cases hG : hasGap l
      · rfl
      · exact absurd hG hg
    have hp : hasPair l = true := by
      rw [hg'] at h
      simpa using h
    have hzs : pad l.length (nz l) = l := pad_nz_eq_of_hasGap_false l hg'
    have hp' : hasPair (nz l) = true := by
      have e := hasPair_append_zeros (nz l) (l.length - (nz l).length)
      have : pad l.length (nz l) = nz l ++ List.replicate (l.length - (nz l).length) 0 := rfl
      rw [← this, hzs] at e
      rw [← e, hp]
    have hlt : (merge_core (nz l)).1.length < (nz l).length :=
      merge_core_length_lt_of_pair (nz l) (nz_all_nonzero l) hp'
    intro heq
    have : nz (pad l.length ((merge_core (nz l)).1)) = nz l := by rw [heq]
    rw [nz_pad, nz_of_all_nonzero (merge_core_all_nonzero _)] at this
    rw [this] at hlt
    exact lt_irrefl _ hlt

/-- KEY LEMMA: a line's changed flag under left processing equals the
per-line movability test. -/
theorem processLine_changed_eq_movable (l : List Int) :
    (_process_single_line_leftwise l).2.2 = movable_left_row l := by
  cases hm : movable_left_row l
  · rw [processLine_of_not_movable hm]
  · rw [processLine_eq]
    exact decide_eq_true (processLine_ne_of_movable hm)

theorem processLine_score_zero_of_not_movable {l : List Int}
    (h : movable_left_row l = false) : (_process_single_line_leftwise l).2.1 = 0 := by
  rw [processLine_of_not_movable h]

/-! ### Whole-board left processing -/

theorem applyLeft_board (b : Board) :
    (_apply_left_processing_to_all_lines b).1 =
      b.map (fun row => (_process_single_line_leftwise row).1) := by
  induction b with
  | nil => rfl
  | cons row t ih =>
    simp only [_apply_left_processing_to_all_lines, List.foldr_cons, List.map_cons] at *
    cases hc : (_process_single_line_leftwise row).2.2
    · have hm : movable_left_row row = false := by
        rw [← processLine_changed_eq_movable, hc]
      have hrow : (_process_single_line_leftwise row).1 = row := by
        rw [processLine_of_not_movable hm]
      simp [hc, hrow, ih]
    · simp [hc, ih]

theorem applyLeft_changed (b : Board) :
    (_apply_left_processing_to_all_lines b).2.2 =
      b.any (fun row => (_process_single_line_leftwise row).2.2) := by
  induction b with
  | nil => rfl
  | cons row t ih =>
    simp only [_apply_left_processing_to_all_lines, List.foldr_cons, List.any_cons] at *
    cases hc : (_process_single_line_leftwise row).2.2
    · simp [hc, ih]
    · simp [hc]

theorem applyLeft_score (b : Board) :
    (_apply_left_processing_to_all_lines b).2.1 =
      (b.map (fun row => (_process_single_line_leftwise row).2.1)).sum := by
  induction b with
  | nil => rfl
  | cons row t ih =>
    simp only [_apply_left_processing_to_all_lines, List.foldr_cons, List.map_cons,
      List.sum_cons] at *
    cases hc : (_process_single_line_leftwise row).2.2
    · have hm : movable_left_row row = false := by
        rw [← processLine_changed_eq_movable, hc]
      have hs : (_process_single_line_leftwise row).2.1 = 0 :=
        processLine_score_zero_of_not_movable hm
      simp [hc, hs, ih]
    · simp [hc, ih]

theorem applyLeft_id_of_not_changed {b : Board}
    (h : (_apply_left_processing_to_all_lines b).2.2 = false) :
    (_apply_left_processing_to_all_lines b).1 = b := by
  rw [applyLeft_board]
  rw [applyLeft_changed] at h
  have hall : ∀ row ∈ b, (_process_single_line_leftwise row).2.2 = false := by
    intro row hrow
    by_contra hne
    have : b.any (fun row => (_process_single_line_leftwise row).2.2) = true :=
      List.any_eq_true.mpr ⟨row, hrow, by simpa using hne⟩
    rw [h] at this
    simpa using this
  induction b with
  | nil => rfl
  | cons row t ih =>
    simp only [List.map_cons]
    have h1 : (_process_single_line_leftwise row).1 = row := by
      have hm : movable_left_row row = false := by
        rw [← processLine_changed_eq_movable]
        exact hall row (List.mem_cons_self row t)
      rw [processLine_of_not_movable hm]
    rw [h1]
    congr 1
    exact ih (by simp_all) (fun r hr => hall r (List.mem_cons_of_mem row hr))

theorem applyLeft_of_settled {b : Board}
    (h : ∀ row ∈ b, movable_left_row row = false) :
    _apply_left_processing_to_all_lines b = (b, 0, false) := by
  induction b with
  | nil => rfl
  | cons row t ih =>
    have hrow := processLine_of_not_movable (h row (List.mem_cons_self row t))
    have ht := ih (fun r hr => h r (List.mem_cons_of_mem row hr))
    simp only [_apply_left_processing_to_all_lines, List.foldr_cons] at *
    rw [hrow, ht]
    simp

theorem applyLeft_length (b : Board) :
    (_apply_left_processing_to_all_lines b).1.length = b.length := by
  rw [applyLeft_board, List.length_map]

theorem applyLeft_row_lengths (b : Board) :
    ∀ row ∈ (_apply_left_processing_to_all_lines b).1,
      ∃ row0 ∈ b, row.length = row0.length := by
  rw [applyLeft_board]
  intro row hrow
  obtain ⟨row0, h0, heq⟩ := List.mem_map.mp hrow
  exact ⟨row0, h0, by rw [← heq, processLine_length]⟩

/-! ### Grid geometry -/

theorem reverse_rows_reverse_rows (b : Board) :
    reverse_rows (reverse_rows b) = b := by
  simp [reverse_rows, List.map_map, Function.comp_def]

theorem reverse_rows_length (b : Board) : (reverse_rows b).length = b.length := by
  simp [reverse_rows]

theorem transpose_length (b : Board) : (transpose_board b).length = b.length := by
  simp [transpose_board]

theorem range_map_getD {α : Type} (n i : Nat) (f : Nat → α) (d : α) (h : i < n) :
    ((List.range n).map f).getD i d = f i := by
  rw [List.getD_eq_getElem?_getD]
  rw [List.getElem?_eq_getElem (by simpa using h)]
  simp

theorem transpose_row (b : Board) (r : Nat) (h : r < b.length) :
    (transpose_board b).getD r [] = (List.range b.length).map (fun c => cell b c r) := by
  unfold transpose_board
  exact range_map_getD _ _ _ _ h

theorem cell_transpose (b : Board) (r c : Nat) (hr : r < b.length) (hc : c < b.length) :
    cell (transpose_board b) r c = cell b c r := by
  rw [cell, transpose_row b r hr]
  exact range_map_getD _ _ _ _ hc

theorem row_eq_range_map {l : List Int} {n : Nat} (h : l.length = n) :
    (List.range n).map (fun j => l.getD j 0) = l := by
  apply List.ext_getElem
  · simp [h]
  · intro i h1 h2
    have hi : i < n := by simpa using h1
    simp [List.getElem_range, List.getD_eq_getElem?_getD, List.getElem?_eq_getElem h2]

theorem transpose_transpose {b : Board} (hsq : Square b) :
    transpose_board (transpose_board b) = b := by
  obtain ⟨hpos, hrows⟩ := hsq
  apply List.ext_getElem
  · simp [transpose_length]
  · intro i h1 h2
    have hn : i < b.length := by simpa [transpose_length] using h2
    have hTlen : (transpose_board b).length = b.length := transpose_length b
    calc (transpose_board (transpose_board b))[i]
        = (List.range (transpose_board b).length).map (fun c => cell (transpose_board b) c i) := by
          unfold transpose_board
          simp [List.getElem_map, List.getElem_range]
    _ = (List.range b.length).map (fun c => cell b i c) := by
          rw [hTlen]
          apply List.map_congr_left
          intro c hc
          exact cell_transpose b c i (by simpa using hc) hn
    _ = b[i] := by
          have hlen : (b[i]).length = b.length := hrows _ (List.getElem_mem h2)
          have := row_eq_range_map hlen
          rw [← this]
          apply List.map_congr_left
          intro c hc
          simp [cell, List.getD_eq_getElem?_getD, List.getElem?_eq_getElem h2]

theorem square_transpose {b : Board} (h : 0 < b.length) : Square (transpose_board b) := by
  constructor
  · simpa [transpose_length] using h
  · intro row hrow
    unfold transpose_board at hrow
    obtain ⟨r, _, rfl⟩ := List.mem_map.mp hrow
    simp [transpose_length]

theorem square_reverse_rows {b : Board} (h : Square b) : Square (reverse_rows b) := by
  obtain ⟨hpos, hrows⟩ := h
  constructor
  · simpa [reverse_rows_length] using hpos
  · intro row hrow
    obtain ⟨row0, h0, rfl⟩ := List.mem_map.mp hrow
    simp [reverse_rows_length, hrows row0 h0]

theorem square_applyLeft {b : Board} (h : Square b) :
    Square (_apply_left_processing_to_all_lines b).1 := by
  obtain ⟨hpos, hrows⟩ := h
  constructor
  · simpa [applyLeft_length] using hpos
  · intro row hrow
    obtain ⟨row0, h0, heq⟩ := applyLeft_row_lengths b row hrow
    rw [applyLeft_length, heq, hrows row0 h0]

/-- Entry condition of well-formed boards, separated out. -/
def EntriesOk (b : Board) : Prop :=
  ∀ row ∈ b, ∀ v ∈ row, v = 0 ∨ IsPow2 v

theorem getD_eq_getElem_of_lt {α : Type} (l : List α) (d : α) {i : Nat}
    (h : i < l.length) : l.getD i d = l[i] := by
  simp [List.getD_eq_getElem?_getD, List.getElem?_eq_getElem h]

theorem getD_eq_default_of_le {α : Type} (l : List α) (d : α) {i : Nat}
    (h : l.length ≤ i) : l.getD i d = d := by
  simp [List.getD_eq_getElem?_getD, List.getElem?_eq_none h]

theorem cell_entry_or_zero (b : Board) (r c : Nat) :
    cell b r c = 0 ∨ ∃ row ∈ b, cell b r c ∈ row := by
  rw [cell]
  by_cases hr : r < b.length
  · by_cases hc : c < (b.getD r []).length
    · right
      refine ⟨b.getD r [], ?_, ?_⟩
      · rw [getD_eq_getElem_of_lt b [] hr]
        exact List.getElem_mem hr
      · rw [getD_eq_getElem_of_lt _ 0 hc]
        exact List.getElem_mem hc
    · left
      exact getD_eq_default_of_le _ 0 (by omega)
  · left
    rw [getD_eq_default_of_le b [] (by omega)]
    rfl

theorem cell_ok {b : Board} (h : EntriesOk b) (r c : Nat) :
    cell b r c = 0 ∨ IsPow2 (cell b r c) := by
  rcases cell_entry_or_zero b r c with h0 | ⟨row, hrow, hmem⟩
  · exact Or.inl h0
  · exact h row hrow _ hmem

theorem entriesOk_transpose {b : Board} (h : EntriesOk b) :
    EntriesOk (transpose_board b) := by
  intro row hrow v hv
  unfold transpose_board at hrow
  obtain ⟨r, _, rfl⟩ := List.mem_map.mp hrow
  obtain ⟨c, _, rfl⟩ := List.mem_map.mp hv
  exact cell_ok h c r

theorem entriesOk_reverse_rows {b : Board} (h : EntriesOk b) :
    EntriesOk (reverse_rows b) := by
  intro row hrow v hv
  obtain ⟨row0, h0, rfl⟩ := List.mem_map.mp hrow
  exact h row0 h0 v (List.mem_reverse.mp hv)

theorem nz_pos_of_entries {row : List Int} (h : ∀ v ∈ row, v = 0 ∨ IsPow2 v) :
    ∀ x ∈ nz row, 0 < x := by
  intro x hx
  have hne : x ≠ 0 := nz_all_nonzero row x hx
  have hmem : x ∈ row := List.mem_of_mem_filter hx
  rcases h x hmem with h0 | ⟨k, rfl⟩
  · exact absurd h0 hne
  · positivity

/-! ### The always-inverting move variant (spec §4.1) -/

/-- Modelled from the spec: "This composition must be exact — applying
the inverse transform only when the slide changed anything is an
optimization".  This variant always applies the inverse geometry
transform; `process_move` is the conditional version from the code. -/
def process_move_always (b : Board) (dir : DIRECTION) : Board × Int × Bool :=
  match dir with
  | .LEFT => _apply_left_processing_to_all_lines b
  | .RIGHT =>
    let p := _apply_left_processing_to_all_lines (reverse_rows b)
    (reverse_rows p.1, p.2.1, p.2.2)
  | .UP =>
    let p := _apply_left_processing_to_all_lines (transpose_board b)
    (transpose_board p.1, p.2.1, p.2.2)
  | .DOWN =>
    let p := _apply_left_processing_to_all_lines (reverse_rows (transpose_board b))
    (transpose_board (reverse_rows p.1), p.2.1, p.2.2)

/-- C5: the conditional inverse transform in `process_move` (undo the
transpose/reversal only when the slide changed something) is equivalent
to always applying the inverse transform: for every well-formed square
board and direction the two variants return identical results. -/
theorem claim_C5 (b : Board) (dir : DIRECTION) (h : WellFormed b) :
    process_move b dir = process_move_always b dir := by
  obtain ⟨hsq, _⟩ := h
  cases dir with
  | LEFT => rfl
  | RIGHT =>
    cases hc : (_apply_left_processing_to_all_lines (reverse_rows b)).2.2 with
    | false =>
      have hid := applyLeft_id_of_not_changed hc
      simp only [process_move, process_move_always, hc, Bool.false_eq_true, if_false]
      rw [hid, reverse_rows_reverse_rows]
    | true =>
      simp only [process_move, process_move_always, hc, if_true]
  | UP =>
    cases hc : (_apply_left_processing_to_all_lines (transpose_board b)).2.2 with
    | false =>
      have hid := applyLeft_id_of_not_changed hc
      simp only [process_move, process_move_always, hc, Bool.false_eq_true, if_false]
      rw [hid, transpose_transpose hsq]
    | true =>
      simp only [process_move, process_move_always, hc, if_true]
  | DOWN =>
    cases hc : (_apply_left_processing_to_all_lines (reverse_rows (transpose_board b))).2.2 with
    | false =>
      have hid := applyLeft_id_of_not_changed hc
      simp only [process_move, process_move_always, hc, Bool.false_eq_true, if_false]
      rw [hid, reverse_rows_reverse_rows, transpose_transpose hsq]
    | true =>
      simp only [process_move, process_move_always, hc, if_true]

theorem claim_C5_witness :
    WellFormed [[2,0],[0,0]] ∧
      process_move [[2,0],[0,0]] .DOWN = process_move_always [[2,0],[0,0]] .DOWN :=
  ⟨by decide, claim_C5 [[2,0],[0,0]] .DOWN (by decide)⟩

/-- C8: on the 4x4 board whose first row is [2,2,2,2], a Left move
produces first row [4,4,0,0] (no re-merging of the produced 4s),
score delta 8 and changed = true. -/
theorem claim_C8 :
    process_move [[2,2,2,2],[0,0,0,0],[0,0,0,0],[0,0,0,0]] .LEFT
      = ([[4,4,0,0],[0,0,0,0],[0,0,0,0],[0,0,0,0]], 8, true) := by decide

/-! ### A second pass in the same direction -/

theorem sum_zero_all_zero {L : List Int} (hpos : ∀ x ∈ L, 0 ≤ x) (hs : L.sum = 0) :
    ∀ x ∈ L, x = 0 := by
  induction L with
  | nil => simp
  | cons a t ih =>
    have ha : 0 ≤ a := hpos a (List.mem_cons_self a t)
    have ht : ∀ x ∈ t, 0 ≤ x := fun x hx => hpos x (List.mem_cons_of_mem a hx)
    have hts : 0 ≤ t.sum := List.sum_nonneg ht
    rw [List.sum_cons] at hs
    intro x hx
    rcases List.mem_cons.mp hx with rfl | hx'
    · omega
    · exact ih ht (by omega) x hx'

/-- A processed line with zero merge score is settled: it cannot move
left any further. -/
theorem processLine_settled_output {row : List Int}
    (hrow : ∀ v ∈ row, v = 0 ∨ IsPow2 v)
    (hs : (_process_single_line_leftwise row).2.1 = 0) :
    movable_left_row (_process_single_line_leftwise row).1 = false := by
  have hpos := nz_pos_of_entries hrow
  rw [processLine_eq] at hs
  obtain ⟨hp, hm⟩ := merge_core_score_zero (nz row) hpos hs
  rw [processLine_eq, movable_eq_gap_or_pair]
  have h1 : hasGap (pad row.length ((merge_core (nz row)).1)) = false :=
    hasGap_all_nonzero_append_zeros _ (merge_core_all_nonzero _) _
  have h2 : hasPair (pad row.length ((merge_core (nz row)).1)) = false := by
    rw [hm]
    have : pad row.length (nz row)
        = nz row ++ List.replicate (row.length - (nz row).length) 0 := rfl
    rw [this, hasPair_append_zeros, hp]
  rw [h1, h2]
  rfl

/-- After a zero-score left pass over a board with legal entries, every
output row is settled, so a second left pass is the identity. -/
theorem applyLeft_second_pass {x : Board}
    (hx : ∀ row ∈ x, ∀ v ∈ row, v = 0 ∨ IsPow2 v)
    (hs : (_apply_left_processing_to_all_lines x).2.1 = 0) :
    _apply_left_processing_to_all_lines (_apply_left_processing_to_all_lines x).1
      = ((_apply_left_processing_to_all_lines x).1, 0, false) := by
  apply applyLeft_of_settled
  intro row hrow
  rw [applyLeft_board] at hrow
  obtain ⟨row0, h0, rfl⟩ := List.mem_map.mp hrow
  have hscores : ∀ s ∈ x.map (fun row => (_process_single_line_leftwise row).2.1), 0 ≤ s := by
    intro s hsmem
    obtain ⟨r, hr, rfl⟩ := List.mem_map.mp hsmem
    rw [processLine_eq]
    exact merge_core_score_nonneg (nz r)
      (fun v hv => le_of_lt (nz_pos_of_entries (hx r hr) v hv))
  have hz := sum_zero_all_zero hscores (by rw [← applyLeft_score]; exact hs)
  have h0score : (_process_single_line_leftwise row0).2.1 = 0 :=
    hz _ (List.mem_map.mpr ⟨row0, h0, rfl⟩)
  exact processLine_settled_output (hx row0 h0) h0score

/-- C3 as stated is false: on [[2,2,4],[0,0,0],[0,0,0]] a Left move
produces first row [4,4,0], and a second immediate Left move merges the
two 4s, so the second changed flag is true. -/
theorem claim_C3_counterexample :
    WellFormed [[2,2,4],[0,0,0],[0,0,0]] ∧
      (process_move (process_move [[2,2,4],[0,0,0],[0,0,0]] .LEFT).1 .LEFT).2.2 = true :=
  ⟨by decide, by decide⟩

/-- C3 amended: the first move can create new mergeable pairs, so a
second identical move may change the board; but when the first move
performed no merges (score delta 0), the second immediate application of
the same direction reports changed = false and returns the same board. -/
theorem claim_C3 (b : Board) (dir : DIRECTION) (h : WellFormed b)
    (hs : (process_move b dir).2.1 = 0) :
    (process_move (process_move b dir).1 dir).2.2 = false ∧
      (process_move (process_move b dir).1 dir).1 = (process_move b dir).1 := by
  obtain ⟨hsq, hent⟩ := h
  cases dir with
  | LEFT =>
    have hsp := applyLeft_second_pass hent hs
    constructor
    · show (_apply_left_processing_to_all_lines (_apply_left_processing_to_all_lines b).1).2.2 = false
      rw [hsp]
    · show (_apply_left_processing_to_all_lines (_apply_left_processing_to_all_lines b).1).1
        = (_apply_left_processing_to_all_lines b).1
      rw [hsp]
  | RIGHT =>
    have hx : ∀ row ∈ reverse_rows b, ∀ v ∈ row, v = 0 ∨ IsPow2 v :=
      entriesOk_reverse_rows hent
    have hsp := applyLeft_second_pass hx hs
    cases hc : (_apply_left_processing_to_all_lines (reverse_rows b)).2.2 with
    | false =>
      simp only [process_move, hc, Bool.false_eq_true, if_false]
      exact ⟨trivial, trivial⟩
    | true =>
      simp only [process_move, hc, if_true]
      rw [reverse_rows_reverse_rows, hsp]
      simp
  | UP =>
    have hx : ∀ row ∈ transpose_board b, ∀ v ∈ row, v = 0 ∨ IsPow2 v :=
      entriesOk_transpose hent
    have hsp := applyLeft_second_pass hx hs
    have hsqP : Square (_apply_left_processing_to_all_lines (transpose_board b)).1 :=
      square_applyLeft (square_transpose hsq.1)
    cases hc : (_apply_left_processing_to_all_lines (transpose_board b)).2.2 with
    | false =>
      simp only [process_move, hc, Bool.false_eq_true, if_false]
      exact ⟨trivial, trivial⟩
    | true =>
      simp only [process_move, hc, if_true]
      rw [transpose_transpose hsqP, hsp]
      simp
  | DOWN =>
    have hx : ∀ row ∈ reverse_rows (transpose_board b), ∀ v ∈ row, v = 0 ∨ IsPow2 v :=
      entriesOk_reverse_rows (entriesOk_transpose hent)
    have hsp := applyLeft_second_pass hx hs
    have hsqP : Square (_apply_left_processing_to_all_lines
        (reverse_rows (transpose_board b))).1 :=
      square_applyLeft (square_reverse_rows (square_transpose hsq.1))
    cases hc : (_apply_left_processing_to_all_lines (reverse_rows (transpose_board b))).2.2 with
    | false =>
      simp only [process_move, hc, Bool.false_eq_true, if_false]
      exact ⟨trivial, trivial⟩
    | true =>
      simp only [process_move, hc, if_true]
      rw [transpose_transpose (square_reverse_rows hsqP), reverse_rows_reverse_rows, hsp]
      simp

/-! ### Index characterisation of movability -/

theorem movable_iff (l : List Int) :
    movable_left_row l = true ↔
      ∃ i, i + 1 < l.length ∧ l.getD (i+1) 0 ≠ 0 ∧
        (l.getD i 0 = 0 ∨ l.getD i 0 = l.getD (i+1) 0) := by
  induction l with
  | nil => simp [movable_left_row]
  | cons a t ih =>
    cases t with
    | nil =>
      simp only [movable_left_row, List.length_cons, List.length_nil]
      constructor
      · intro h; simp at h
      · rintro ⟨i, hi, _⟩; omega
    | cons b r =>
      have hstep : movable_left_row (a :: b :: r)
          = ((decide (b ≠ 0) && (a == 0 || a == b)) || movable_left_row (b :: r)) := rfl
      rw [hstep]
      simp only [Bool.or_eq_true, Bool.and_eq_true, decide_eq_true_eq, beq_iff_eq, ih]
      constructor
      · rintro (⟨hb, h0⟩ | ⟨i, hi, hnz, hor⟩)
        · refine ⟨0, ?_, ?_, ?_⟩
          · simp
          · simpa using hb
          · simpa using h0
        · refine ⟨i + 1, ?_, ?_, ?_⟩
          · simp only [List.length_cons] at hi ⊢
            omega
          · simpa [List.getD_cons_succ] using hnz
          · simpa [List.getD_cons_succ] using hor
      · rintro ⟨i, hi, hnz, hor⟩
        cases i with
        | zero =>
          left
          simp only [List.getD_cons_succ, List.getD_cons_zero] at hnz hor
          exact ⟨hnz, hor⟩
        | succ i' =>
          right
          refine ⟨i', ?_, ?_, ?_⟩
          · simp only [List.length_cons] at hi ⊢
            omega
          · simpa [List.getD_cons_succ] using hnz
          · simpa [List.getD_cons_succ] using hor

theorem getD_reverse {l : List Int} {i : Nat} (h : i < l.length) :
    l.reverse.getD i 0 = l.getD (l.length - 1 - i) 0 := by
  rw [getD_eq_getElem_of_lt _ _ (by simpa using h),
    getD_eq_getElem_of_lt _ _ (by omega : l.length - 1 - i < l.length)]
  rw [List.getElem_reverse]

/-- Movability of the reversed line: the rightward-move condition. -/
theorem movable_reverse_iff (l : List Int) :
    movable_left_row l.reverse = true ↔
      ∃ i, i + 1 < l.length ∧ l.getD i 0 ≠ 0 ∧
        (l.getD (i+1) 0 = 0 ∨ l.getD (i+1) 0 = l.getD i 0) := by
  rw [movable_iff]
  constructor
  · rintro ⟨i, hi, hnz, hor⟩
    rw [List.length_reverse] at hi
    have e1 : l.reverse.getD (i+1) 0 = l.getD (l.length - 2 - i) 0 := by
      rw [getD_reverse (by omega)]
      congr 1
      omega
    have e2 : l.reverse.getD i 0 = l.getD (l.length - 1 - i) 0 :=
      getD_reverse (by omega)
    refine ⟨l.length - 2 - i, by omega, ?_, ?_⟩
    · rwa [e1] at hnz
    · rw [e2, e1] at hor
      have h3 : l.length - 2 - i + 1 = l.length - 1 - i := by omega
      rw [h3]
      tauto
  · rintro ⟨i, hi, hnz, hor⟩
    refine ⟨l.length - 2 - i, ?_, ?_, ?_⟩
    · rw [List.length_reverse]
      omega
    · have e1 : l.reverse.getD (l.length - 2 - i + 1) 0 = l.getD i 0 := by
        rw [getD_reverse (by omega)]
        congr 1
        omega
      rwa [e1]
    · have e1 : l.reverse.getD (l.length - 2 - i + 1) 0 = l.getD i 0 := by
        rw [getD_reverse (by omega)]
        congr 1
        omega
      have e2 : l.reverse.getD (l.length - 2 - i) 0 = l.getD (i+1) 0 := by
        rw [getD_reverse (by omega)]
        congr 1
        omega
      rw [e1, e2]
      tauto

theorem any_movable_iff_getD (x : Board) :
    x.any movable_left_row = true ↔
      ∃ r < x.length, movable_left_row (x.getD r []) = true := by
  rw [List.any_eq_true]
  constructor
  · rintro ⟨row, hmem, hp⟩
    obtain ⟨r, hr, hrow⟩ := List.mem_iff_getElem.mp hmem
    refine ⟨r, hr, ?_⟩
    rw [getD_eq_getElem_of_lt _ _ hr, hrow]
    exact hp
  · rintro ⟨r, hr, hp⟩
    refine ⟨x.getD r [], ?_, hp⟩
    rw [getD_eq_getElem_of_lt _ _ hr]
    exact List.getElem_mem hr

theorem map_getD_row {α β : Type} (l : List α) (f : α → β) (d : α) (d' : β)
    {r : Nat} (h : r < l.length) (hd : f d = d') :
    (l.map f).getD r d' = f (l.getD r d) := by
  rw [getD_eq_getElem_of_lt _ _ (by simpa using h), getD_eq_getElem_of_lt _ _ h]
  simp

theorem row_length {b : Board} (hsq : Square b) {r : Nat} (hr : r < b.length) :
    (b.getD r []).length = b.length := by
  rw [getD_eq_getElem_of_lt b [] hr]
  exact hsq.2 _ (List.getElem_mem hr)

theorem movable_cell_left_iff (b : Board) (n r c : Nat) :
    movable_cell b n r c .LEFT = true ↔
      cell b r c ≠ 0 ∧ 0 < c ∧
        (cell b r (c-1) = 0 ∨ cell b r (c-1) = cell b r c) := by
  rcases eq_or_ne (cell b r c) 0 with h0 | h0 <;>
    simp [movable_cell, h0, and_assoc]

theorem movable_cell_right_iff (b : Board) (n r c : Nat) :
    movable_cell b n r c .RIGHT = true ↔
      cell b r c ≠ 0 ∧ c < n - 1 ∧
        (cell b r (c+1) = 0 ∨ cell b r (c+1) = cell b r c) := by
  rcases eq_or_ne (cell b r c) 0 with h0 | h0 <;>
    simp [movable_cell, h0, and_assoc]

theorem movable_cell_up_iff (b : Board) (n r c : Nat) :
    movable_cell b n r c .UP = true ↔
      cell b r c ≠ 0 ∧ 0 < r ∧
        (cell b (r-1) c = 0 ∨ cell b (r-1) c = cell b r c) := by
  rcases eq_or_ne (cell b r c) 0 with h0 | h0 <;>
    simp [movable_cell, h0, and_assoc]

theorem movable_cell_down_iff (b : Board) (n r c : Nat) :
    movable_cell b n r c .DOWN = true ↔
      cell b r c ≠ 0 ∧ r < n - 1 ∧
        (cell b (r+1) c = 0 ∨ cell b (r+1) c = cell b r c) := by
  rcases eq_or_ne (cell b r c) 0 with h0 | h0 <;>
    simp [movable_cell, h0, and_assoc]

theorem isMove_iff (b : Board) (dir : DIRECTION) :
    is_move_possible_in_direction b dir = true ↔
      ∃ r < b.length, ∃ c < b.length, movable_cell b b.length r c dir = true := by
  simp [is_move_possible_in_direction, List.any_eq_true, List.mem_range]

/-- LEFT: `is_move_possible_in_direction` agrees with per-row movability. -/
theorem isMove_left {b : Board} (hsq : Square b) :
    is_move_possible_in_direction b .LEFT = b.any movable_left_row := by
  apply bool_eq_of_iff
  rw [isMove_iff, any_movable_iff_getD]
  constructor
  · rintro ⟨r, hr, c, hc, hmc⟩
    rw [movable_cell_left_iff] at hmc
    obtain ⟨hnz, hcpos, hor⟩ := hmc
    refine ⟨r, hr, ?_⟩
    rw [movable_iff]
    refine ⟨c - 1, ?_, ?_, ?_⟩
    · rw [row_length hsq hr]
      omega
    · rw [show c - 1 + 1 = c from by omega]
      exact hnz
    · rw [show c - 1 + 1 = c from by omega]
      exact hor
  · rintro ⟨r, hr, hmov⟩
    rw [movable_iff] at hmov
    obtain ⟨i, hi, hnz, hor⟩ := hmov
    rw [row_length hsq hr] at hi
    refine ⟨r, hr, i + 1, by omega, ?_⟩
    rw [movable_cell_left_iff]
    refine ⟨hnz, by omega, ?_⟩
    rw [show i + 1 - 1 = i from by omega]
    exact hor

/-- RIGHT: `is_move_possible_in_direction` agrees with per-row movability
of the row-reversed board. -/
theorem isMove_right {b : Board} (hsq : Square b) :
    is_move_possible_in_direction b .RIGHT = (reverse_rows b).any movable_left_row := by
  apply bool_eq_of_iff
  rw [isMove_iff, any_movable_iff_getD]
  have hlen : (reverse_rows b).length = b.length := reverse_rows_length b
  constructor
  · rintro ⟨r, hr, c, hc, hmc⟩
    rw [movable_cell_right_iff] at hmc
    obtain ⟨hnz, hclt, hor⟩ := hmc
    refine ⟨r, by omega, ?_⟩
    rw [show (reverse_rows b).getD r [] = (b.getD r []).reverse from
      map_getD_row b List.reverse [] [] hr rfl]
    rw [movable_reverse_iff]
    refine ⟨c, ?_, hnz, hor⟩
    rw [row_length hsq hr]
    omega
  · rintro ⟨r, hr, hmov⟩
    rw [hlen] at hr
    rw [show (reverse_rows b).getD r [] = (b.getD r []).reverse from
      map_getD_row b List.reverse [] [] hr rfl, movable_reverse_iff] at hmov
    obtain ⟨i, hi, hnz, hor⟩ := hmov
    rw [row_length hsq hr] at hi
    refine ⟨r, hr, i, by omega, ?_⟩
    rw [movable_cell_right_iff]
    exact ⟨hnz, by omega, hor⟩

/-- UP: `is_move_possible_in_direction` agrees with per-row movability
of the transposed board. -/
theorem isMove_up {b : Board} (hsq : Square b) :
    is_move_possible_in_direction b .UP = (transpose_board b).any movable_left_row := by
  apply bool_eq_of_iff
  rw [isMove_iff, any_movable_iff_getD]
  have hTlen : (transpose_board b).length = b.length := transpose_length b
  constructor
  · rintro ⟨r, hr, c, hc, hmc⟩
    rw [movable_cell_up_iff] at hmc
    obtain ⟨hnz, hrpos, hor⟩ := hmc
    refine ⟨c, by omega, ?_⟩
    rw [transpose_row b c hc, movable_iff]
    refine ⟨r - 1, ?_, ?_, ?_⟩
    · simp only [List.length_map, List.length_range]
      omega
    · rw [range_map_getD _ _ _ _ (show r - 1 + 1 < b.length from by omega),
        show r - 1 + 1 = r from by omega]
      exact hnz
    · rw [range_map_getD _ _ _ _ (show r - 1 < b.length from by omega),
        range_map_getD _ _ _ _ (show r - 1 + 1 < b.length from by omega),
        show r - 1 + 1 = r from by omega]
      exact hor
  · rintro ⟨c, hc, hmov⟩
    rw [hTlen] at hc
    rw [transpose_row b c hc, movable_iff] at hmov
    obtain ⟨i, hi, hnz, hor⟩ := hmov
    simp only [List.length_map, List.length_range] at hi
    rw [range_map_getD _ _ _ _ (show i + 1 < b.length from by omega)] at hnz hor
    rw [range_map_getD _ _ _ _ (show i < b.length from by omega)] at hor
    refine ⟨i + 1, by omega, c, by omega, ?_⟩
    rw [movable_cell_up_iff]
    refine ⟨hnz, by omega, ?_⟩
    rw [show i + 1 - 1 = i from by omega]
    exact hor

/-- DOWN: `is_move_possible_in_direction` agrees with per-row movability
of the transposed, row-reversed board. -/
theorem isMove_down {b : Board} (hsq : Square b) :
    is_move_possible_in_direction b .DOWN
      = (reverse_rows (transpose_board b)).any movable_left_row := by
  apply bool_eq_of_iff
  rw [isMove_iff, any_movable_iff_getD]
  have hTlen : (transpose_board b).length = b.length := transpose_length b
  have hlen : (reverse_rows (transpose_board b)).length = b.length := by
    rw [reverse_rows_length, hTlen]
  constructor
  · rintro ⟨r, hr, c, hc, hmc⟩
    rw [movable_cell_down_iff] at hmc
    obtain ⟨hnz, hrlt, hor⟩ := hmc
    refine ⟨c, by omega, ?_⟩
    rw [show (reverse_rows (transpose_board b)).getD c []
        = ((transpose_board b).getD c []).reverse from
      map_getD_row (transpose_board b) List.reverse [] []
        (show c < (transpose_board b).length from by omega) rfl]
    rw [transpose_row b c hc, movable_reverse_iff]
    refine ⟨r, ?_, ?_, ?_⟩
    · simp only [List.length_map, List.length_range]
      omega
    · rw [range_map_getD _ _ _ _ (show r < b.length from by omega)]
      exact hnz
    · rw [range_map_getD _ _ _ _ (show r + 1 < b.length from by omega),
        range_map_getD _ _ _ _ (show r < b.length from by omega)]
      exact hor
  · rintro ⟨c, hc, hmov⟩
    rw [hlen] at hc
    rw [show (reverse_rows (transpose_board b)).getD c []
        = ((transpose_board b).getD c []).reverse from
      map_getD_row (transpose_board b) List.reverse [] []
        (show c < (transpose_board b).length from by omega) rfl,
      transpose_row b c hc, movable_reverse_iff] at hmov
    obtain ⟨i, hi, hnz, hor⟩ := hmov
    simp only [List.length_map, List.length_range] at hi
    rw [range_map_getD _ _ _ _ (show i < b.length from by omega)] at hnz hor
    rw [range_map_getD _ _ _ _ (show i + 1 < b.length from by omega)] at hor
    refine ⟨i, by omega, c, by omega, ?_⟩
    rw [movable_cell_down_iff]
    exact ⟨hnz, by omega, hor⟩

/-- C1: for every well-formed square board and direction, `process_move`
reports changed = true exactly when `is_move_possible_in_direction`
reports true. -/
theorem claim_C1 (b : Board) (dir : DIRECTION) (h : WellFormed b) :
    (process_move b dir).2.2 = is_move_possible_in_direction b dir := by
  obtain ⟨hsq, _⟩ := h
  have hK : ∀ x : Board,
      (_apply_left_processing_to_all_lines x).2.2 = x.any movable_left_row := by
    intro x
    rw [applyLeft_changed]
    simp only [processLine_changed_eq_movable]
  cases dir with
  | LEFT =>
    show (_apply_left_processing_to_all_lines b).2.2 = _
    rw [hK, isMove_left hsq]
  | RIGHT =>
    show (_apply_left_processing_to_all_lines (reverse_rows b)).2.2 = _
    rw [hK, isMove_right hsq]
  | UP =>
    show (_apply_left_processing_to_all_lines (transpose_board b)).2.2 = _
    rw [hK, isMove_up hsq]
  | DOWN =>
    show (_apply_left_processing_to_all_lines (reverse_rows (transpose_board b))).2.2 = _
    rw [hK, isMove_down hsq]

theorem claim_C1_witness :
    WellFormed [[2,2],[0,4]] ∧
      (process_move [[2,2],[0,4]] .LEFT).2.2
        = is_move_possible_in_direction [[2,2],[0,4]] .LEFT :=
  ⟨by decide, claim_C1 [[2,2],[0,4]] .LEFT (by decide)⟩

/-! ### Empty boards and game status -/

theorem not_movable_of_all_zero {l : List Int} (h : ∀ i, l.getD i 0 = 0) :
    movable_left_row l = false := by
  cases hm : movable_left_row l with
  | false => rfl
  | true =>
    exfalso
    rw [movable_iff] at hm
    obtain ⟨i, _, hnz, _⟩ := hm
    exact hnz (h (i+1))

theorem cells_zero_of_entries_zero {x : Board}
    (h : ∀ row ∈ x, ∀ v ∈ row, v = 0) : ∀ r c, cell x r c = 0 := by
  intro r c
  rcases cell_entry_or_zero x r c with h0 | ⟨row, hrow, hmem⟩
  · exact h0
  · exact h row hrow _ hmem

theorem any_movable_false_of_cells_zero {x : Board} (h : ∀ r c, cell x r c = 0) :
    x.any movable_left_row = false := by
  cases hm : x.any movable_left_row with
  | false => rfl
  | true =>
    exfalso
    rw [any_movable_iff_getD] at hm
    obtain ⟨r, hr, hmov⟩ := hm
    rw [not_movable_of_all_zero (fun i => h r i)] at hmov
    simp at hmov

theorem movable_cell_zero {b : Board} {n r c : Nat} {dir : DIRECTION}
    (h : cell b r c = 0) : movable_cell b n r c dir = false := by
  simp [movable_cell, h]

theorem isMove_false_of_cells_zero {x : Board} (h : ∀ r c, cell x r c = 0)
    (dir : DIRECTION) : is_move_possible_in_direction x dir = false := by
  cases hm : is_move_possible_in_direction x dir with
  | false => rfl
  | true =>
    exfalso
    rw [isMove_iff] at hm
    obtain ⟨r, _, c, _, hmc⟩ := hm
    rw [movable_cell_zero (h r c)] at hmc
    simp at hmc

theorem mem_get_empty_cells {x : Board} {r c : Nat} :
    (r, c) ∈ get_empty_cells x ↔ r < x.length ∧ c < x.length ∧ cell x r c = 0 := by
  simp only [get_empty_cells, List.mem_flatten, List.mem_map, List.mem_filter,
    List.mem_range, beq_iff_eq]
  constructor
  · rintro ⟨L, ⟨r', hr', rfl⟩, hmem⟩
    obtain ⟨c', hc', heq⟩ := List.mem_map.mp hmem
    obtain ⟨hc'r, hc'z⟩ := List.mem_filter.mp hc'
    obtain ⟨rfl, rfl⟩ := Prod.mk.injEq _ _ _ _ ▸ heq
    exact ⟨hr', by simpa using hc'r, by simpa using hc'z⟩
  · rintro ⟨hr, hc, hz⟩
    refine ⟨_, ⟨r, hr, rfl⟩, ?_⟩
    apply List.mem_map.mpr
    refine ⟨c, ?_, rfl⟩
    apply List.mem_filter.mpr
    exact ⟨by simpa using hc, by simpa using hz⟩

theorem entries_zero_of_cells_zero {x : Board} (h : ∀ r c, cell x r c = 0) :
    ∀ row ∈ x, ∀ v ∈ row, v = 0 := by
  intro row hrow v hv
  obtain ⟨r, hr, rfl⟩ := List.mem_iff_getElem.mp hrow
  obtain ⟨c, hc, rfl⟩ := List.mem_iff_getElem.mp hv
  have hrc := h r c
  rw [cell, getD_eq_getElem_of_lt x [] hr, getD_eq_getElem_of_lt _ 0 hc] at hrc
  exact hrc

/-- C10: on an all-zero N by N board no move is possible in any
direction, no direction changes the board, yet the status is
InProgress because empty cells exist (any valid win tile is non-zero). -/
theorem claim_C10 (n : Nat) (w : Int) (hn : 0 < n) (hw : w ≠ 0) :
    is_any_move_possible (List.replicate n (List.replicate n 0)) = false ∧
      (∀ dir : DIRECTION,
        (process_move (List.replicate n (List.replicate n 0)) dir).2.2 = false) ∧
      determine_game_status (List.replicate n (List.replicate n 0)) w
        = .IN_PROGRESS := by
  set b0 : Board := List.replicate n (List.replicate n 0) with hb0
  have hent : ∀ row ∈ b0, ∀ v ∈ row, v = 0 := by
    intro row hrow v hv
    rw [hb0] at hrow
    rw [List.eq_of_mem_replicate hrow] at hv
    exact List.eq_of_mem_replicate hv
  have hcells : ∀ r c, cell b0 r c = 0 := cells_zero_of_entries_zero hent
  have hcellsT : ∀ r c, cell (transpose_board b0) r c = 0 := by
    apply cells_zero_of_entries_zero
    intro row hrow v hv
    unfold transpose_board at hrow
    obtain ⟨i, _, rfl⟩ := List.mem_map.mp hrow
    obtain ⟨j, _, rfl⟩ := List.mem_map.mp hv
    exact hcells j i
  have hrev : ∀ (x : Board), (∀ r c, cell x r c = 0) →
      ∀ r c, cell (reverse_rows x) r c = 0 := by
    intro x hx
    apply cells_zero_of_entries_zero
    intro row hrow v hv
    obtain ⟨row0, h0, rfl⟩ := List.mem_map.mp hrow
    exact entries_zero_of_cells_zero hx row0 h0 v (List.mem_reverse.mp hv)
  have hcellsR : ∀ r c, cell (reverse_rows b0) r c = 0 := hrev b0 hcells
  have hcellsRT : ∀ r c, cell (reverse_rows (transpose_board b0)) r c = 0 :=
    hrev _ hcellsT
  have hany : is_any_move_possible b0 = false := by
    simp [is_any_move_possible, isMove_false_of_cells_zero hcells]
  refine ⟨hany, ?_, ?_⟩
  · intro dir
    cases dir with
    | LEFT =>
      show (_apply_left_processing_to_all_lines b0).2.2 = false
      rw [applyLeft_changed]
      simp only [processLine_changed_eq_movable]
      exact any_movable_false_of_cells_zero hcells
    | RIGHT =>
      show (_apply_left_processing_to_all_lines (reverse_rows b0)).2.2 = false
      rw [applyLeft_changed]
      simp only [processLine_changed_eq_movable]
      exact any_movable_false_of_cells_zero hcellsR
    | UP =>
      show (_apply_left_processing_to_all_lines (transpose_board b0)).2.2 = false
      rw [applyLeft_changed]
      simp only [processLine_changed_eq_movable]
      exact any_movable_false_of_cells_zero hcellsT
    | DOWN =>
      show (_apply_left_processing_to_all_lines
        (reverse_rows (transpose_board b0))).2.2 = false
      rw [applyLeft_changed]
      simp only [processLine_changed_eq_movable]
      exact any_movable_false_of_cells_zero hcellsRT
  · have hwin : check_for_win b0 w = false := by
      cases hcw : check_for_win b0 w with
      | false => rfl
      | true =>
        exfalso
        simp only [check_for_win, List.any_eq_true, List.mem_range, beq_iff_eq] at hcw
        obtain ⟨r, _, c, _, hc⟩ := hcw
        rw [hcells r c] at hc
        exact hw hc.symm
    have hlen : b0.length = n := by rw [hb0]; simp
    have hmem00 : ((0, 0) : Nat × Nat) ∈ get_empty_cells b0 :=
      mem_get_empty_cells.mpr ⟨by omega, by omega, hcells 0 0⟩
    have hempty : (get_empty_cells b0).isEmpty = false := by
      cases hge : get_empty_cells b0 with
      | nil => rw [hge] at hmem00; simp at hmem00
      | cons a t => rfl
    simp [determine_game_status, hwin, hempty, hany]

theorem claim_C10_witness :
    0 < 3 ∧ (2048 : Int) ≠ 0 ∧
      (is_any_move_possible (List.replicate 3 (List.replicate 3 0)) = false ∧
        (∀ dir : DIRECTION,
          (process_move (List.replicate 3 (List.replicate 3 0)) dir).2.2 = false) ∧
        determine_game_status (List.replicate 3 (List.replicate 3 0)) 2048
          = .IN_PROGRESS) :=
  ⟨by decide, by decide, claim_C10 3 2048 (by decide) (by decide)⟩

theorem check_for_win_iff {b : Board} (hsq : Square b) (w : Int) :
    check_for_win b w = true ↔ ∃ row ∈ b, w ∈ row := by
  simp only [check_for_win, List.any_eq_true, List.mem_range, beq_iff_eq]
  constructor
  · rintro ⟨r, hr, c, hc, hcw⟩
    refine ⟨b.getD r [], ?_, ?_⟩
    · rw [getD_eq_getElem_of_lt b [] hr]
      exact List.getElem_mem hr
    · rw [← hcw, cell]
      have hlen : (b.getD r []).length = b.length := row_length hsq hr
      rw [getD_eq_getElem_of_lt _ 0 (by omega)]
      exact List.getElem_mem _
  · rintro ⟨row, hrow, hw⟩
    obtain ⟨r, hr, rfl⟩ := List.mem_iff_getElem.mp hrow
    obtain ⟨c, hc, rfl⟩ := List.mem_iff_getElem.mp hw
    have hlen : (b[r]).length = b.length := hsq.2 _ (List.getElem_mem hr)
    refine ⟨r, hr, c, by omega, ?_⟩
    rw [cell, getD_eq_getElem_of_lt b [] hr, getD_eq_getElem_of_lt _ 0 hc]

/-- C4: `determine_game_status` returns Won exactly when some cell holds
the win tile (priority over the loss test), Lost exactly when there is
no win tile, no empty cell and no possible move, and InProgress in every
remaining case. -/
theorem claim_C4 (b : Board) (w : Int) (h : WellFormed b) :
    (determine_game_status b w = .GAME_WON ↔ ∃ row ∈ b, w ∈ row) ∧
      (determine_game_status b w = .GAME_OVER ↔
        ¬(∃ row ∈ b, w ∈ row) ∧ get_empty_cells b = [] ∧
          is_any_move_possible b = false) ∧
      (determine_game_status b w = .IN_PROGRESS ↔
        ¬(∃ row ∈ b, w ∈ row) ∧
          ¬(get_empty_cells b = [] ∧ is_any_move_possible b = false)) := by
  obtain ⟨hsq, _⟩ := h
  have hiff := check_for_win_iff hsq w
  cases hcw : check_for_win b w with
  | true =>
    have hwin : ∃ row ∈ b, w ∈ row := hiff.mp hcw
    simp [determine_game_status, hcw, hwin]
  | false =>
    have hnwin : ¬∃ row ∈ b, w ∈ row := by
      rw [← hiff, hcw]
      simp
    cases hemp : (get_empty_cells b).isEmpty with
    | true =>
      have hnil : get_empty_cells b = [] := by
        cases hge : get_empty_cells b with
        | nil => rfl
        | cons a t => rw [hge] at hemp; simp at hemp
      cases hany : is_any_move_possible b with
      | true => simp [determine_game_status, hcw, hemp, hany, hnwin, hnil]
      | false => simp [determine_game_status, hcw, hemp, hany, hnwin, hnil]
    | false =>
      have hnnil : get_empty_cells b ≠ [] := by
        intro h0
        rw [h0] at hemp
        simp at hemp
      cases hany : is_any_move_possible b with
      | true => simp [determine_game_status, hcw, hemp, hany, hnwin, hnnil]
      | false => simp [determine_game_status, hcw, hemp, hany, hnwin, hnnil]

theorem claim_C4_witness :
    WellFormed [[2,4],[4,2]] ∧
      (determine_game_status [[2,4],[4,2]] 2048 = .GAME_OVER ↔
        ¬(∃ row ∈ ([[2,4],[4,2]] : Board), (2048 : Int) ∈ row) ∧
          get_empty_cells [[2,4],[4,2]] = [] ∧
          is_any_move_possible [[2,4],[4,2]] = false) :=
  ⟨by decide, (claim_C4 [[2,4],[4,2]] 2048 (by decide)).2.1⟩

/-! ### Conservation of tile sum and the score decomposition -/

/-- The board as oriented by `process_move` before the leftward pass. -/
def transform_for (b : Board) (dir : DIRECTION) : Board :=
  match dir with
  | .LEFT => b
  | .RIGHT => reverse_rows b
  | .UP => transpose_board b
  | .DOWN => reverse_rows (transpose_board b)

/-- Merge outputs produced while processing one line (the line is
compressed first, as in `_process_single_line_leftwise`). -/
def row_merge_outputs (row : List Int) : List Int :=
  merge_outputs (_compress_line row).1

/-- All merged-pair output values produced during a move. -/
def move_merge_outputs (b : Board) (dir : DIRECTION) : List Int :=
  ((transform_for b dir).map row_merge_outputs).flatten

theorem merge_outputs_zero_cons (t : List Int) :
    merge_outputs (0 :: t) = merge_outputs t := by
  cases t with
  | nil => rfl
  | cons b r => simp [merge_outputs]

theorem merge_outputs_replicate_zero (k : Nat) :
    merge_outputs (List.replicate k (0 : Int)) = [] := by
  induction k with
  | zero => rfl
  | succ k ih => rw [List.replicate_succ, merge_outputs_zero_cons, ih]

theorem merge_outputs_append_zeros :
    ∀ (l : List Int) (k : Nat),
      merge_outputs (l ++ List.replicate k 0) = merge_outputs l := by
  intro l
  induction l using merge_outputs.induct with
  | case1 => intro k; simpa using merge_outputs_replicate_zero k
  | case2 a =>
    intro k
    rw [List.cons_append, List.nil_append]
    by_cases ha : a = 0
    · subst ha
      rw [merge_outputs_zero_cons, merge_outputs_replicate_zero]
      rfl
    · cases k with
      | zero => simp
      | succ k' =>
        rw [List.replicate_succ]
        have h0 : a ≠ (0 : Int) := ha
        simp only [merge_outputs, if_neg ha, if_neg h0, merge_outputs_zero_cons,
          merge_outputs_replicate_zero]
  | case3 b rest ih =>
    intro k
    rw [List.cons_append, merge_outputs_zero_cons, merge_outputs_zero_cons]
    exact ih k
  | case4 b rest h ih =>
    intro k
    rw [List.cons_append, List.cons_append]
    simp [merge_outputs, h, ih k]
  | case5 a b rest h1 h2 ih =>
    intro k
    have e1 : merge_outputs ((a :: b :: rest) ++ List.replicate k 0)
        = merge_outputs (b :: (rest ++ List.replicate k 0)) := by
      simp only [List.cons_append, merge_outputs, if_neg h1, if_neg h2, List.append_eq]
    have e2 : merge_outputs (a :: b :: rest) = merge_outputs (b :: rest) := by
      simp only [merge_outputs, if_neg h1, if_neg h2]
    rw [e1, e2]
    exact ih k

theorem nz_sum (l : List Int) : (nz l).sum = l.sum := by
  induction l with
  | nil => rfl
  | cons a t ih =>
    by_cases ha : a = 0
    · subst ha
      have h1 : nz ((0 : Int) :: t) = nz t := by simp [nz, List.filter_cons]
      rw [h1, ih, List.sum_cons, zero_add]
    · have h1 : nz (a :: t) = a :: nz t := by simp [nz, List.filter_cons, ha]
      rw [h1, List.sum_cons, List.sum_cons, ih]

theorem pad_sum (n : Nat) (l : List Int) : (pad n l).sum = l.sum := by
  simp [pad]

theorem processLine_sum (l : List Int) :
    (_process_single_line_leftwise l).1.sum = l.sum := by
  rw [processLine_eq]
  show (pad l.length ((merge_core (nz l)).1)).sum = l.sum
  rw [pad_sum, merge_core_sum, nz_sum]

theorem processLine_score_eq_outputs (l : List Int) :
    (_process_single_line_leftwise l).2.1 = (row_merge_outputs l).sum := by
  rw [processLine_eq]
  show (merge_core (nz l)).2 = _
  rw [merge_core_score_eq_outputs]
  unfold row_merge_outputs _compress_line
  show _ = (merge_outputs (pad l.length (nz l))).sum
  rw [show pad l.length (nz l)
    = nz l ++ List.replicate (l.length - (nz l).length) 0 from rfl]
  rw [merge_outputs_append_zeros]

theorem applyLeft_sum (x : Board) :
    board_sum (_apply_left_processing_to_all_lines x).1 = board_sum x := by
  rw [applyLeft_board, board_sum, List.map_map, board_sum]
  congr 1
  apply List.map_congr_left
  intro row _
  exact processLine_sum row

theorem applyLeft_score_outputs (x : Board) :
    (_apply_left_processing_to_all_lines x).2.1
      = ((x.map row_merge_outputs).flatten).sum := by
  rw [applyLeft_score, List.sum_flatten, List.map_map]
  congr 1
  apply List.map_congr_left
  intro row _
  exact processLine_score_eq_outputs row

theorem reverse_rows_sum (x : Board) : board_sum (reverse_rows x) = board_sum x := by
  rw [board_sum, reverse_rows, List.map_map, board_sum]
  congr 1
  apply List.map_congr_left
  intro row _
  exact List.sum_reverse row

theorem range_map_sum (n : Nat) (f : Nat → Int) :
    ((List.range n).map f).sum = ∑ i ∈ Finset.range n, f i := by
  induction n with
  | zero => rfl
  | succ n ih =>
    rw [List.range_succ, List.map_append, List.sum_append, Finset.sum_range_succ, ih]
    simp

theorem list_sum_eq_range {l : List Int} :
    l.sum = ∑ i ∈ Finset.range l.length, l.getD i 0 := by
  conv_lhs => rw [← row_eq_range_map (rfl : l.length = l.length)]
  rw [range_map_sum]

theorem board_sum_eq_double {x : Board} {n : Nat}
    (hrows : ∀ row ∈ x, row.length = n) :
    board_sum x = ∑ r ∈ Finset.range x.length, ∑ c ∈ Finset.range n, cell x r c := by
  rw [board_sum]
  rw [list_sum_eq_range (l := x.map List.sum)]
  rw [List.length_map]
  apply Finset.sum_congr rfl
  intro r hr
  have hrlt : r < x.length := Finset.mem_range.mp hr
  rw [map_getD_row x List.sum [] 0 hrlt rfl]
  rw [list_sum_eq_range (l := x.getD r [])]
  have hlen : (x.getD r []).length = n := by
    rw [getD_eq_getElem_of_lt x [] hrlt]
    exact hrows _ (List.getElem_mem hrlt)
  rw [hlen]
  rfl

theorem transpose_sum {x : Board} (hsq : Square x) :
    board_sum (transpose_board x) = board_sum x := by
  have hT : ∀ row ∈ transpose_board x, row.length = x.length := by
    intro row hrow
    unfold transpose_board at hrow
    obtain ⟨r, _, rfl⟩ := List.mem_map.mp hrow
    simp
  rw [board_sum_eq_double hT, board_sum_eq_double hsq.2, transpose_length]
  rw [Finset.sum_comm]
  apply Finset.sum_congr rfl
  intro c hc
  apply Finset.sum_congr rfl
  intro r hr
  exact cell_transpose x r c (Finset.mem_range.mp hr) (Finset.mem_range.mp hc)

/-- C2: a move never changes the total tile value, and the score delta
of the move equals the sum of the merged-pair output values produced
during the move. -/
theorem claim_C2 (b : Board) (dir : DIRECTION) (h : WellFormed b) :
    board_sum (process_move b dir).1 = board_sum b ∧
      (process_move b dir).2.1 = (move_merge_outputs b dir).sum := by
  obtain ⟨hsq, _⟩ := h
  cases dir with
  | LEFT =>
    constructor
    · exact applyLeft_sum b
    · show (_apply_left_processing_to_all_lines b).2.1 = _
      rw [applyLeft_score_outputs]
      rfl
  | RIGHT =>
    constructor
    · cases hc : (_apply_left_processing_to_all_lines (reverse_rows b)).2.2 with
      | false => simp only [process_move, hc, Bool.false_eq_true, if_false]
      | true =>
        simp only [process_move, hc, if_true]
        rw [reverse_rows_sum, applyLeft_sum, reverse_rows_sum]
    · show (_apply_left_processing_to_all_lines (reverse_rows b)).2.1 = _
      rw [applyLeft_score_outputs]
      rfl
  | UP =>
    have hsqP : Square (_apply_left_processing_to_all_lines (transpose_board b)).1 :=
      square_applyLeft (square_transpose hsq.1)
    constructor
    · cases hc : (_apply_left_processing_to_all_lines (transpose_board b)).2.2 with
      | false => simp only [process_move, hc, Bool.false_eq_true, if_false]
      | true =>
        simp only [process_move, hc, if_true]
        rw [transpose_sum hsqP, applyLeft_sum, transpose_sum hsq]
    · show (_apply_left_processing_to_all_lines (transpose_board b)).2.1 = _
      rw [applyLeft_score_outputs]
      rfl
  | DOWN =>
    have hsqP : Square (_apply_left_processing_to_all_lines
        (reverse_rows (transpose_board b))).1 :=
      square_applyLeft (square_reverse_rows (square_transpose hsq.1))
    constructor
    · cases hc : (_apply_left_processing_to_all_lines
          (reverse_rows (transpose_board b))).2.2 with
      | false => simp only [process_move, hc, Bool.false_eq_true, if_false]
      | true =>
        simp only [process_move, hc, if_true]
        rw [transpose_sum (square_reverse_rows hsqP), reverse_rows_sum,
          applyLeft_sum, reverse_rows_sum, transpose_sum hsq]
    · show (_apply_left_processing_to_all_lines
        (reverse_rows (transpose_board b))).2.1 = _
      rw [applyLeft_score_outputs]
      rfl

theorem claim_C2_witness :
    WellFormed [[2,2],[0,4]] ∧
      (board_sum (process_move [[2,2],[0,4]] .LEFT).1 = board_sum [[2,2],[0,4]] ∧
        (process_move [[2,2],[0,4]] .LEFT).2.1
          = (move_merge_outputs [[2,2],[0,4]] .LEFT).sum) :=
  ⟨by decide, claim_C2 [[2,2],[0,4]] .LEFT (by decide)⟩

/-! ### Invariant preservation -/

theorem entriesOk_processLine {row : List Int}
    (h : ∀ v ∈ row, v = 0 ∨ IsPow2 v) :
    ∀ v ∈ (_process_single_line_leftwise row).1, v = 0 ∨ IsPow2 v := by
  rw [processLine_eq]
  intro v hv
  rcases List.mem_append.mp hv with hv | hv
  · obtain ⟨y, hy, hvy⟩ := merge_core_mem (nz row) v hv
    have hyrow : y ∈ row := List.mem_of_mem_filter hy
    rcases h y hyrow with rfl | ⟨k, rfl⟩
    · rcases hvy with rfl | rfl
      · exact Or.inl rfl
      · exact Or.inl (by ring)
    · rcases hvy with rfl | rfl
      · exact Or.inr ⟨k, rfl⟩
      · exact Or.inr ⟨k + 1, by ring⟩
  · exact Or.inl (List.eq_of_mem_replicate hv)

theorem entriesOk_applyLeft {x : Board} (h : EntriesOk x) :
    EntriesOk (_apply_left_processing_to_all_lines x).1 := by
  rw [applyLeft_board]
  intro row hrow
  obtain ⟨row0, h0, rfl⟩ := List.mem_map.mp hrow
  exact entriesOk_processLine (h row0 h0)

theorem cell_in_empty_cells {b : Board} {r c : Nat}
    (h : (r, c) ∈ get_empty_cells b) :
    r < b.length ∧ c < b.length ∧ cell b r c = 0 :=
  mem_get_empty_cells.mp h

/-- The two outcomes of `add_random_tile`: full board, or a placement at
some empty cell. -/
theorem add_random_tile_cases (b : Board) (pick : Nat) (four : Bool) :
    ((get_empty_cells b).isEmpty = true ∧ add_random_tile b pick four = (b, false)) ∨
      (∃ r c, (r, c) ∈ get_empty_cells b ∧
        add_random_tile b pick four
          = (set_cell b r c (if four then 4 else 2), true)) := by
  unfold add_random_tile
  cases he : (get_empty_cells b).isEmpty with
  | true => left; exact ⟨rfl, by simp [he]⟩
  | false =>
    right
    have hlen : 0 < (get_empty_cells b).length := by
      cases hge : get_empty_cells b with
      | nil => rw [hge] at he; simp at he
      | cons a t => simp
    have hlt : pick % (get_empty_cells b).length < (get_empty_cells b).length :=
      Nat.mod_lt _ hlen
    refine ⟨((get_empty_cells b).getD (pick % (get_empty_cells b).length) (0, 0)).1,
      ((get_empty_cells b).getD (pick % (get_empty_cells b).length) (0, 0)).2, ?_, by simp [he]⟩
    rw [getD_eq_getElem_of_lt _ _ hlt]
    exact List.getElem_mem hlt

theorem set_cell_length (b : Board) (r c : Nat) (v : Int) :
    (set_cell b r c v).length = b.length := by
  simp [set_cell]

theorem wellFormed_set_cell {b : Board} {r c : Nat} {v : Int}
    (h : WellFormed b) (hr : r < b.length) (hv : IsPow2 v) :
    WellFormed (set_cell b r c v) := by
  obtain ⟨⟨hpos, hrows⟩, hent⟩ := h
  refine ⟨⟨by simpa [set_cell_length] using hpos, ?_⟩, ?_⟩
  · intro row hrow
    rcases List.mem_or_eq_of_mem_set hrow with hmem | rfl
    · rw [set_cell_length]
      exact hrows row hmem
    · rw [set_cell_length, List.length_set]
      exact row_length ⟨hpos, hrows⟩ hr
  · intro row hrow v' hv'
    rcases List.mem_or_eq_of_mem_set hrow with hmem | rfl
    · exact hent row hmem v' hv'
    · rcases List.mem_or_eq_of_mem_set hv' with hmem' | rfl
      · refine hent (b.getD r []) ?_ v' hmem'
        rw [getD_eq_getElem_of_lt b [] hr]
        exact List.getElem_mem hr
      · exact Or.inr hv

/-- C9: well-formedness (non-empty square board, entries zero or a power
of two) is preserved by `process_move` in every direction and by
`add_random_tile` for every random draw. -/
theorem claim_C9 (b : Board) (h : WellFormed b) :
    (∀ dir : DIRECTION, WellFormed (process_move b dir).1) ∧
      (∀ (pick : Nat) (four : Bool), WellFormed (add_random_tile b pick four).1) := by
  obtain ⟨hsq, hent⟩ := h
  constructor
  · intro dir
    cases dir with
    | LEFT =>
      exact ⟨square_applyLeft hsq, entriesOk_applyLeft hent⟩
    | RIGHT =>
      cases hc : (_apply_left_processing_to_all_lines (reverse_rows b)).2.2 with
      | false =>
        simp only [process_move, hc, Bool.false_eq_true, if_false]
        exact ⟨hsq, hent⟩
      | true =>
        simp only [process_move, hc, if_true]
        exact ⟨square_reverse_rows (square_applyLeft (square_reverse_rows hsq)),
          entriesOk_reverse_rows (entriesOk_applyLeft (entriesOk_reverse_rows hent))⟩
    | UP =>
      cases hc : (_apply_left_processing_to_all_lines (transpose_board b)).2.2 with
      | false =>
        simp only [process_move, hc, Bool.false_eq_true, if_false]
        exact ⟨hsq, hent⟩
      | true =>
        simp only [process_move, hc, if_true]
        have hP := square_applyLeft (square_transpose hsq.1)
        exact ⟨square_transpose hP.1,
          entriesOk_transpose (entriesOk_applyLeft (entriesOk_transpose hent))⟩
    | DOWN =>
      cases hc : (_apply_left_processing_to_all_lines
          (reverse_rows (transpose_board b))).2.2 with
      | false =>
        simp only [process_move, hc, Bool.false_eq_true, if_false]
        exact ⟨hsq, hent⟩
      | true =>
        simp only [process_move, hc, if_true]
        have hP := square_applyLeft (square_reverse_rows (square_transpose hsq.1))
        exact ⟨square_transpose (square_reverse_rows hP).1,
          entriesOk_transpose (entriesOk_reverse_rows
            (entriesOk_applyLeft (entriesOk_reverse_rows (entriesOk_transpose hent))))⟩
  · intro pick four
    rcases add_random_tile_cases b pick four with ⟨_, heq⟩ | ⟨r, c, hmem, heq⟩
    · rw [heq]
      exact ⟨hsq, hent⟩
    · rw [heq]
      obtain ⟨hr, _, _⟩ := cell_in_empty_cells hmem
      apply wellFormed_set_cell ⟨hsq, hent⟩ hr
      cases four with
      | true => exact ⟨2, by norm_num⟩
      | false => exact ⟨1, by norm_num⟩

theorem claim_C9_witness :
    WellFormed [[2,2],[0,4]] ∧
      ((∀ dir : DIRECTION, WellFormed (process_move [[2,2],[0,4]] dir).1) ∧
        (∀ (pick : Nat) (four : Bool),
          WellFormed (add_random_tile [[2,2],[0,4]] pick four).1)) :=
  ⟨by decide, claim_C9 [[2,2],[0,4]] (by decide)⟩

theorem set_cell_getD_row_same {b : Board} {r : Nat} (c : Nat) (v : Int)
    (hr : r < b.length) :
    (set_cell b r c v).getD r [] = (b.getD r []).set c v := by
  rw [set_cell, getD_eq_getElem_of_lt _ _ (by simpa using hr)]
  exact List.getElem_set_eq (by simpa using hr)

theorem set_cell_getD_row_other {b : Board} {r r' : Nat} (c : Nat) (v : Int)
    (hne : r' ≠ r) :
    (set_cell b r c v).getD r' [] = b.getD r' [] := by
  rw [set_cell]
  by_cases hr' : r' < b.length
  · rw [getD_eq_getElem_of_lt _ _ (by simpa using hr'),
      getD_eq_getElem_of_lt _ _ hr']
    exact List.getElem_set_ne (Ne.symm hne) _
  · rw [getD_eq_default_of_le _ _ (by simpa using (by omega : b.length ≤ r')),
      getD_eq_default_of_le _ _ (by omega)]

theorem cell_set_cell_same {b : Board} {r c : Nat} {v : Int}
    (hr : r < b.length) (hc : c < (b.getD r []).length) :
    cell (set_cell b r c v) r c = v := by
  rw [cell, set_cell_getD_row_same c v hr,
    getD_eq_getElem_of_lt _ _ (by simpa using hc)]
  exact List.getElem_set_eq (by simpa using hc)

theorem cell_set_cell_other {b : Board} {r c r' c' : Nat} {v : Int}
    (hne : (r', c') ≠ (r, c)) :
    cell (set_cell b r c v) r' c' = cell b r' c' := by
  by_cases hrr : r' = r
  · subst hrr
    have hcc : c' ≠ c := fun hcontra => hne (by rw [hcontra])
    by_cases hr : r' < b.length
    · rw [cell, cell, set_cell_getD_row_same c v hr]
      by_cases hc' : c' < (b.getD r' []).length
      · rw [getD_eq_getElem_of_lt _ _ (by simpa using hc'),
          getD_eq_getElem_of_lt _ _ hc']
        exact List.getElem_set_ne (Ne.symm hcc) _
      · rw [getD_eq_default_of_le _ _ (by rw [List.length_set]; omega),
          getD_eq_default_of_le _ _ (by omega)]
    · have hle : b.length ≤ r' := by omega
      have h1 : (set_cell b r' c v).getD r' [] = [] := by
        apply getD_eq_default_of_le
        rw [set_cell_length]
        exact hle
      have h2 : b.getD r' [] = ([] : List Int) := getD_eq_default_of_le _ _ hle
      rw [cell, cell, h1, h2]
  · rw [cell, cell, set_cell_getD_row_other c v hrr]

/-- C7: `add_random_tile` on a full board returns the board unchanged
with added = false; with exactly one empty cell it fills precisely that
cell with 2 or 4, leaves every other cell unchanged, and reports
added = true — for every random draw. -/
theorem claim_C7 (b : Board) (pick : Nat) (four : Bool) (h : WellFormed b) :
    (get_empty_cells b = [] → add_random_tile b pick four = (b, false)) ∧
      (∀ r c, get_empty_cells b = [(r, c)] →
        (add_random_tile b pick four).2 = true ∧
          (cell (add_random_tile b pick four).1 r c = 2 ∨
            cell (add_random_tile b pick four).1 r c = 4) ∧
          ∀ r' c', (r', c') ≠ (r, c) →
            cell (add_random_tile b pick four).1 r' c' = cell b r' c') := by
  obtain ⟨hsq, _⟩ := h
  constructor
  · intro hE
    simp [add_random_tile, hE]
  · intro r c hE
    have hmem : (r, c) ∈ get_empty_cells b := by
      rw [hE]
      exact List.mem_cons_self _ _
    obtain ⟨hr, hcn, _⟩ := cell_in_empty_cells hmem
    have heq : add_random_tile b pick four
        = (set_cell b r c (if four then 4 else 2), true) := by
      simp [add_random_tile, hE, Nat.mod_one]
    rw [heq]
    refine ⟨rfl, ?_, ?_⟩
    · have hc : c < (b.getD r []).length := by
        rw [row_length hsq hr]
        exact hcn
      rw [cell_set_cell_same hr hc]
      cases four with
      | false => left; rfl
      | true => right; rfl
    · intro r' c' hne
      exact cell_set_cell_other hne

theorem claim_C7_witness :
    WellFormed [[2,4],[4,0]] ∧
      ((get_empty_cells [[2,4],[4,0]] = [] →
          add_random_tile [[2,4],[4,0]] 7 false = ([[2,4],[4,0]], false)) ∧
        (∀ r c, get_empty_cells [[2,4],[4,0]] = [(r, c)] →
          (add_random_tile [[2,4],[4,0]] 7 false).2 = true ∧
            (cell (add_random_tile [[2,4],[4,0]] 7 false).1 r c = 2 ∨
              cell (add_random_tile [[2,4],[4,0]] 7 false).1 r c = 4) ∧
            ∀ r' c', (r', c') ≠ (r, c) →
              cell (add_random_tile [[2,4],[4,0]] 7 false).1 r' c'
                = cell [[2,4],[4,0]] r' c')) :=
  ⟨by decide, claim_C7 [[2,4],[4,0]] 7 false (by decide)⟩

/-! ### Board initialisation -/

theorem nz_set_length_succ {row : List Int} :
    ∀ {c : Nat} {v : Int}, c < row.length → row.getD c 0 = 0 → v ≠ 0 →
      (nz (row.set c v)).length = (nz row).length + 1 := by
  induction row with
  | nil => intro c v hc _ _; simp at hc
  | cons a t ih =>
    intro c v hc h0 hv
    cases c with
    | zero =>
      have ha : a = 0 := by simpa using h0
      subst ha
      have h1 : nz (v :: t) = v :: nz t := by simp [nz, List.filter_cons, hv]
      have h2 : nz ((0 : Int) :: t) = nz t := by simp [nz, List.filter_cons]
      simp only [List.set_cons_zero, h1, h2, List.length_cons]
    | succ c' =>
      have hc' : c' < t.length := by simpa using hc
      have h0' : t.getD c' 0 = 0 := by simpa using h0
      have hrec := ih hc' h0' hv
      by_cases ha : a = 0
      · subst ha
        have h1 : ∀ u : List Int, nz ((0 : Int) :: u) = nz u := by
          intro u; simp [nz, List.filter_cons]
        simp only [List.set_cons_succ, h1, hrec]
      · have h1 : ∀ u : List Int, nz (a :: u) = a :: nz u := by
          intro u; simp [nz, List.filter_cons, ha]
        simp only [List.set_cons_succ, h1, List.length_cons, hrec]

theorem nonzero_count_set_cell {b : Board} :
    ∀ {r : Nat} (c : Nat) (v : Int), r < b.length → c < (b.getD r []).length →
      cell b r c = 0 → v ≠ 0 →
      nonzero_count (set_cell b r c v) = nonzero_count b + 1 := by
  induction b with
  | nil => intro r c v hr _ _ _; simp at hr
  | cons row t ih =>
    intro r c v hr hc h0 hv
    cases r with
    | zero =>
      have hrow : (row :: t : Board).getD 0 [] = row := rfl
      rw [hrow] at hc
      have h0' : row.getD c 0 = 0 := h0
      have e : set_cell (row :: t) 0 c v = (row.set c v) :: t := rfl
      rw [e]
      simp only [nonzero_count, List.map_cons, List.sum_cons]
      rw [nz_set_length_succ hc h0' hv]
      omega
    | succ r' =>
      have hr' : r' < t.length := by simpa using hr
      have e : set_cell (row :: t) (r' + 1) c v = row :: set_cell t r' c v := rfl
      rw [e]
      simp only [nonzero_count, List.map_cons, List.sum_cons]
      have := ih c v hr' (by simpa using hc) h0 hv
      simp only [nonzero_count] at this
      omega

theorem cells_replicate_zero (n : Nat) :
    ∀ r c, cell (List.replicate n (List.replicate n (0 : Int))) r c = 0 :=
  cells_zero_of_entries_zero (fun row hrow v hv => by
    rw [List.eq_of_mem_replicate hrow] at hv
    exact List.eq_of_mem_replicate hv)

theorem square_replicate_zero {n : Nat} (hn : 0 < n) :
    Square (List.replicate n (List.replicate n (0 : Int))) := by
  constructor
  · simpa using hn
  · intro row hrow
    rw [List.eq_of_mem_replicate hrow]
    simp

theorem nonzero_count_replicate_zero (n : Nat) :
    nonzero_count (List.replicate n (List.replicate n (0 : Int))) = 0 := by
  rw [nonzero_count]
  have h : ∀ row ∈ List.replicate n (List.replicate n (0 : Int)), (nz row).length = 0 := by
    intro row hrow
    rw [List.eq_of_mem_replicate hrow]
    rw [nz_eq_nil_of_all_zero (fun x hx => List.eq_of_mem_replicate hx)]
    rfl
  rw [List.map_congr_left h]
  simp

theorem entries_set_cell {b : Board} {r c : Nat} {v : Int} (P : Int → Prop)
    (h : ∀ row ∈ b, ∀ x ∈ row, P x) (hv : P v) :
    ∀ row ∈ set_cell b r c v, ∀ x ∈ row, P x := by
  intro row hrow x hx
  rcases List.mem_or_eq_of_mem_set hrow with hmem | rfl
  · exact h row hmem x hx
  · rcases List.mem_or_eq_of_mem_set hx with hmem' | rfl
    · by_cases hr : r < b.length
      · refine h (b.getD r []) ?_ x hmem'
        rw [getD_eq_getElem_of_lt b [] hr]
        exact List.getElem_mem hr
      · rw [getD_eq_default_of_le b [] (by omega)] at hmem'
        simp at hmem'
    · exact hv

/-- C6 corrected: `initialize_board` errors exactly when the requested
size is not positive; for positive size it returns score 0, state
InProgress and a size-by-size board whose non-zero cells are each 2 or
4 — but the number of seeded tiles is min 2 (size²): a 1x1 board
receives only one tile because the second insertion finds no empty
cell. -/
theorem claim_C6 (size : Int) (p1 p2 : Nat) (f1 f2 : Bool) :
    ((∃ msg, initialize_board size p1 p2 f1 f2 = .error msg) ↔ size ≤ 0) ∧
      (0 < size → ∃ bd,
        initialize_board size p1 p2 f1 f2 = .ok (bd, 0, .IN_PROGRESS) ∧
          bd.length = size.toNat ∧ (∀ row ∈ bd, row.length = size.toNat) ∧
          nonzero_count bd = min 2 (size.toNat * size.toNat) ∧
          ∀ row ∈ bd, ∀ v ∈ row, v = 0 ∨ v = 2 ∨ v = 4) := by
  constructor
  · constructor
    · rintro ⟨msg, hmsg⟩
      by_contra hgt
      rw [initialize_board, if_neg hgt] at hmsg
      simp at hmsg
    · intro hle
      exact ⟨_, by rw [initialize_board, if_pos hle]⟩
  · intro hpos
    set n := size.toNat with hn
    have hn1 : 1 ≤ n := by omega
    set b0 : Board := List.replicate n (List.replicate n 0) with hb0
    have hsq0 : Square b0 := square_replicate_zero (by omega)
    have hlen0 : b0.length = n := by rw [hb0]; simp
    have hcells0 : ∀ r c, cell b0 r c = 0 := cells_replicate_zero n
    have hent0 : ∀ row ∈ b0, ∀ x ∈ row, x = 0 := by
      intro row hrow x hx
      rw [hb0] at hrow
      rw [List.eq_of_mem_replicate hrow] at hx
      exact List.eq_of_mem_replicate hx
    have hmem00 : ((0, 0) : Nat × Nat) ∈ get_empty_cells b0 :=
      mem_get_empty_cells.mpr ⟨by omega, by omega, hcells0 0 0⟩
    have hinit : initialize_board size p1 p2 f1 f2
        = .ok ((add_random_tile (add_random_tile b0 p1 f1).1 p2 f2).1, 0,
            .IN_PROGRESS) := by
      rw [initialize_board, if_neg (not_le.mpr hpos)]
    rcases add_random_tile_cases b0 p1 f1 with ⟨hfull, _⟩ | ⟨r1, c1, hmem1, heq1⟩
    · exfalso
      cases hge : get_empty_cells b0 with
      | nil => rw [hge] at hmem00; simp at hmem00
      | cons a t => rw [hge] at hfull; simp at hfull
    obtain ⟨hr1, hc1n, hcell1⟩ := cell_in_empty_cells hmem1
    set v1 : Int := if f1 then 4 else 2 with hv1
    have hv1ne : v1 ≠ 0 := by rw [hv1]; cases f1 <;> norm_num
    have hv1p : IsPow2 v1 := by
      rw [hv1]
      cases f1 with
      | false => exact ⟨1, by norm_num⟩
      | true => exact ⟨2, by norm_num⟩
    set b1 : Board := set_cell b0 r1 c1 v1 with hb1
    have hwf1 : WellFormed b1 :=
      wellFormed_set_cell ⟨hsq0, fun row hrow x hx => Or.inl (hent0 row hrow x hx)⟩
        hr1 hv1p
    have hlen1 : b1.length = n := by rw [hb1, set_cell_length, hlen0]
    have hc1row : c1 < (b0.getD r1 []).length := by
      rw [row_length hsq0 hr1, hlen0]
      omega
    have hcount0 : nonzero_count b0 = 0 := by
      rw [hb0]
      exact nonzero_count_replicate_zero n
    have hcount1 : nonzero_count b1 = 1 := by
      rw [hb1, nonzero_count_set_cell c1 v1 hr1 hc1row hcell1 hv1ne, hcount0]
    have hent1 : ∀ row ∈ b1, ∀ x ∈ row, x = 0 ∨ x = 2 ∨ x = 4 := by
      rw [hb1]
      apply entries_set_cell
      · intro row hrow x hx
        exact Or.inl (hent0 row hrow x hx)
      · rw [hv1]
        cases f1 <;> simp
    by_cases hone : n = 1
    · have hr10 : r1 = 0 := by
        have := hr1
        rw [hlen0] at this
        omega
      have hc10 : c1 = 0 := by
        rw [hlen0] at hc1n
        omega
      have hcell00 : cell b1 r1 c1 = v1 := by
        rw [hb1]
        exact cell_set_cell_same hr1 hc1row
      have hempty1 : get_empty_cells b1 = [] := by
        cases hge : get_empty_cells b1 with
        | nil => rfl
        | cons a t =>
          exfalso
          have hmem : (a.1, a.2) ∈ get_empty_cells b1 := by
            rw [hge]
            simp
          obtain ⟨ha1, ha2, haz⟩ := cell_in_empty_cells hmem
          rw [hlen1, hone] at ha1 ha2
          have e1 : a.1 = r1 := by omega
          have e2 : a.2 = c1 := by omega
          rw [e1, e2, hcell00] at haz
          exact hv1ne haz
      have heq2 : add_random_tile b1 p2 f2 = (b1, false) := by
        simp [add_random_tile, hempty1]
      refine ⟨b1, ?_, by rw [hlen1], ?_, ?_, hent1⟩
      · rw [hinit, heq1]
        show Except.ok ((add_random_tile b1 p2 f2).1, 0, _) = _
        rw [heq2]
      · intro row hrow
        rw [hwf1.1.2 row hrow, hlen1]
      · rw [hcount1, hone]
        simp
    · have hn2 : 2 ≤ n := by omega
      have hw : ∃ w : Nat × Nat, w ≠ (r1, c1) ∧ w.1 < n ∧ w.2 < n := by
        by_cases h00 : (r1, c1) = ((0 : Nat), (0 : Nat))
        · refine ⟨(0, 1), ?_, by omega, by omega⟩
          rw [h00]
          simp
        · exact ⟨(0, 0), fun h => h00 h.symm, by omega, by omega⟩
      obtain ⟨w, hwne, hw1, hw2⟩ := hw
      have hcellw : cell b1 w.1 w.2 = 0 := by
        rw [hb1, cell_set_cell_other (by simpa using hwne)]
        exact hcells0 w.1 w.2
      have hmemw : (w.1, w.2) ∈ get_empty_cells b1 :=
        mem_get_empty_cells.mpr ⟨by omega, by omega, hcellw⟩
      rcases add_random_tile_cases b1 p2 f2 with ⟨hfull2, _⟩ | ⟨r2, c2, hmem2, heq2⟩
      · exfalso
        cases hge : get_empty_cells b1 with
        | nil => rw [hge] at hmemw; simp at hmemw
        | cons a t => rw [hge] at hfull2; simp at hfull2
      obtain ⟨hr2, hc2n, hcell2⟩ := cell_in_empty_cells hmem2
      set v2 : Int := if f2 then 4 else 2 with hv2
      have hv2ne : v2 ≠ 0 := by rw [hv2]; cases f2 <;> norm_num
      have hv2p : IsPow2 v2 := by
        rw [hv2]
        cases f2 with
        | false => exact ⟨1, by norm_num⟩
        | true => exact ⟨2, by norm_num⟩
      set b2 : Board := set_cell b1 r2 c2 v2 with hb2
      have hwf2 : WellFormed b2 := wellFormed_set_cell hwf1 hr2 hv2p
      have hlen2 : b2.length = n := by rw [hb2, set_cell_length, hlen1]
      have hc2row : c2 < (b1.getD r2 []).length := by
        rw [row_length hwf1.1 hr2, hlen1]
        omega
      have hcount2 : nonzero_count b2 = 2 := by
        rw [hb2, nonzero_count_set_cell c2 v2 hr2 hc2row hcell2 hv2ne, hcount1]
      refine ⟨b2, ?_, by rw [hlen2], ?_, ?_, ?_⟩
      · rw [hinit, heq1]
        show Except.ok ((add_random_tile b1 p2 f2).1, 0, _) = _
        rw [heq2]
      · intro row hrow
        rw [hwf2.1.2 row hrow, hlen2]
      · rw [hcount2]
        have : 4 ≤ n * n := Nat.mul_le_mul hn2 hn2
        omega
      · rw [hb2]
        apply entries_set_cell _ hent1
        rw [hv2]
        cases f2 <;> simp

/-- C6 as stated is false at size 1: the board is seeded with a single
tile, not two, because the second random insertion finds no empty
cell. -/
theorem claim_C6_counterexample :
    (0 : Int) < 1 ∧
      initialize_board 1 0 0 false false
        = .ok ([[2]], 0, .IN_PROGRESS) ∧
      nonzero_count [[2]] = 1 :=
  ⟨by decide, rfl, by decide⟩

theorem claim_C6_witness :
    (0 : Int) < 2 ∧ ∃ bd,
      initialize_board 2 0 0 false false = .ok (bd, 0, .IN_PROGRESS) ∧
        bd.length = (2 : Int).toNat ∧ (∀ row ∈ bd, row.length = (2 : Int).toNat) ∧
        nonzero_count bd = min 2 ((2 : Int).toNat * (2 : Int).toNat) ∧
        ∀ row ∈ bd, ∀ v ∈ row, v = 0 ∨ v = 2 ∨ v = 4 :=
  ⟨by decide, (claim_C6 2 0 0 false false).2 (by decide)⟩

theorem claim_C3_witness :
    WellFormed [[2,0],[0,0]] ∧ (process_move [[2,0],[0,0]] .RIGHT).2.1 = 0 ∧
      ((process_move (process_move [[2,0],[0,0]] .RIGHT).1 .RIGHT).2.2 = false ∧
        (process_move (process_move [[2,0],[0,0]] .RIGHT).1 .RIGHT).1
          = (process_move [[2,0],[0,0]] .RIGHT).1) :=
  ⟨by decide, by decide, claim_C3 [[2,0],[0,0]] .RIGHT (by decide) (by decide)⟩
